import Mathlib

/-!
Verification of the mjs interpreter core: a shallow embedding, in Lean 4, of
the value representation and type conversions (value.cpp), the number
formatting routines (do_format_double / to_string), the recursive-descent
parser with automatic semicolon insertion and precedence climbing
(parser.cpp), the source-position computation, and the packed one-slot
value representation of the garbage-collected heap (gc_heap.h).

Machine doubles are embedded semantically: a finite double is carried as its
exact rational value (every IEEE-754 binary64 value is a rational), with the
special values NaN, the two infinities and negative zero as separate
constructors.  The arithmetic the embedded routines perform on doubles
(floor, division by a power of two, subtraction of integral values in range)
is exact in binary64, so it is modelled by exact rational arithmetic.
-/

namespace Mjs

/-- Semantic model of an IEEE-754 binary64 `double`.  A finite non-zero (or
positive-zero) value is `fin q` with `q` its exact rational value; negative
zero, the infinities and NaN are separate constructors.  (All NaN payloads
are identified: the interpreter never distinguishes them.) -/
inductive F64 where
  | nan : F64
  | inf : Bool → F64
  | negZero : F64
  | fin : ℚ → F64
deriving DecidableEq

/-- Grid of finite binary64 values: `q` is representable iff it is `M·2^e`
with `|M| < 2^53` and `-1074 ≤ e ≤ 971`. -/
def Repr64 (q : ℚ) : Prop :=
  ∃ M e : ℤ, |M| < 2 ^ 53 ∧ -1074 ≤ e ∧ e ≤ 971 ∧ q = (M : ℚ) * 2 ^ e

/-- A well-formed embedded double: finite payloads lie on the binary64 grid. -/
def WfF64 : F64 → Prop
  | F64.fin q => Repr64 q
  | _ => True

def isNaNF : F64 → Bool
  | F64.nan => true
  | _ => false

/-- IEEE `==` on doubles (so `+0 == -0`, and NaN compares unequal to
everything including itself). -/
def ieeeEq : F64 → F64 → Bool
  | F64.nan, _ => false
  | _, F64.nan => false
  | F64.inf b1, F64.inf b2 => b1 == b2
  | F64.inf _, _ => false
  | _, F64.inf _ => false
  | F64.negZero, F64.negZero => true
  | F64.negZero, F64.fin q => q == 0
  | F64.fin q, F64.negZero => q == 0
  | F64.fin q1, F64.fin q2 => q1 == q2

/-- Number equality in the sense of §4.5: IEEE `==`, or both operands NaN. -/
def f64NumEq (l r : F64) : Bool :=
  ieeeEq l r || (isNaNF l && isNaNF r)

/-!  ## Type conversions (value.cpp)  -/

/-- Embeds `to_integer_inner`: `(n < 0 ? -1 : 1) * std::floor(std::abs(n))`.
The floor of a double is exactly representable, so the computation is exact
and modelled over ℚ. -/
def to_integer_inner (n : ℚ) : ℚ :=
  (if n < 0 then -1 else 1) * (⌊|n|⌋ : ℚ)

/-- Embeds `to_uint32(double)`.  NaN, zeroes and infinities give 0; otherwise
the source computes `n = to_integer_inner(n); n = n - max * floor(n / max)`
with `max = 2^64` scaled down, i.e. `2^32`, and casts to `uint32_t`.  Every
one of those double operations is exact for every double input (floor is
exact, division by `2^32` only shifts the exponent, the product and the
difference are exactly representable integers), so the embedding uses exact
rational arithmetic. -/
def to_uint32 : F64 → ℕ
  | F64.nan => 0
  | F64.inf _ => 0
  | F64.negZero => 0
  | F64.fin q =>
    if q = 0 then 0
    else
      let n := to_integer_inner q
      let r := n - 4294967296 * (⌊n / 4294967296⌋ : ℚ)
      (⌊r⌋).toNat

/-!  ## Source positions (parser.cpp, `calc_source_position`)  -/

/-- The loop body of `calc_source_position`: scans the interval accumulating
separate CR and LF counters (C++ `int`, hence ℤ) and a zero-based column.
`%` on C++ ints truncates toward zero, hence `Int.tmod`. -/
def cspFold : List Char → ℤ → ℤ → ℤ → ℤ × ℤ × ℤ
  | [], cr, lf, col => (cr, lf, col)
  | c :: cs, cr, lf, col =>
    if c = '\n' then cspFold cs cr (lf + 1) 0
    else if c = '\r' then cspFold cs (cr + 1) lf 0
    else if c = '\t' then cspFold cs cr lf (col + (8 - Int.tmod col 8))
    else cspFold cs cr lf (col + 1)

/-- Embeds `calc_source_position(t, start_pos, end_pos, start)`: both CR and
LF counters start at `start.line - 1`, the column at `start.column - 1`, and
the result is `(1 + max(cr, lf), 1 + column)`. -/
def calc_source_position (t : List Char) (startPos endPos : ℕ) (start : ℤ × ℤ) : ℤ × ℤ :=
  let s := (t.drop startPos).take (endPos - startPos)
  let res := cspFold s (start.1 - 1) (start.1 - 1) (start.2 - 1)
  (1 + max res.1 res.2.1, 1 + res.2.2)

/-- The position computation as the claim states it: each LF, each CR and
each CRLF pair counts as exactly one line terminator (resetting the column),
tab advances the column to the next multiple of 8, anything else advances it
by one. -/
def claimFold : List Char → ℤ → ℤ → ℤ × ℤ
  | [], line, col => (line, col)
  | '\r' :: '\n' :: cs, line, _ => claimFold cs (line + 1) 0
  | c :: cs, line, col =>
    if c = '\n' ∨ c = '\r' then claimFold cs (line + 1) 0
    else if c = '\t' then claimFold cs line (col + (8 - Int.tmod col 8))
    else claimFold cs line (col + 1)

/-- The whole-interval position computation as described by the claim. -/
def claim_source_position (t : List Char) (startPos endPos : ℕ) (start : ℤ × ℤ) : ℤ × ℤ :=
  let s := (t.drop startPos).take (endPos - startPos)
  let res := claimFold s (start.1 - 1) (start.2 - 1)
  (1 + res.1, 1 + res.2)

/-- Reference column scan used to state the amended claim: the column after
processing the interval, independent of the line counters. -/
def colScan : ℤ → List Char → ℤ
  | col, [] => col
  | col, c :: cs =>
    if c = '\n' ∨ c = '\r' then colScan 0 cs
    else if c = '\t' then colScan (col + (8 - Int.tmod col 8)) cs
    else colScan (col + 1) cs

/-!  ## The interpreter value type (value.cpp)  -/

/-- The eight value kinds of `value_type`. -/
inductive value_type where
  | undefined | null | boolean | number | string | object | reference | native_function
deriving DecidableEq

/-- The tagged union `value`.  Objects and native functions are modelled by
their identity (a numeric id standing for the `shared_ptr` / `std::function`
instance); a reference holds its base object's identity and the property
name. -/
inductive value where
  | undefined : value
  | null : value
  | boolean : Bool → value
  | number : F64 → value
  | string : String → value
  | object : ℕ → value
  | reference : ℕ → String → value
  | native_function : ℕ → value

def kindOf : value → value_type
  | value.undefined => value_type.undefined
  | value.null => value_type.null
  | value.boolean _ => value_type.boolean
  | value.number _ => value_type.number
  | value.string _ => value_type.string
  | value.object _ => value_type.object
  | value.reference _ _ => value_type.reference
  | value.native_function _ => value_type.native_function

/-- Embeds `operator==(const value&, const value&)`.  `none` models the
`NOT_IMPLEMENTED` path, which throws: the `reference` and `native_function`
cases of the switch fall through to it. -/
def valueEq : value → value → Option Bool
  | value.undefined, value.undefined => some true
  | value.null, value.null => some true
  | value.boolean a, value.boolean b => some (a == b)
  | value.number a, value.number b => some (ieeeEq a b || (isNaNF a && isNaNF b))
  | value.string a, value.string b => some (a == b)
  | value.object a, value.object b => some (a == b)
  | value.reference _ _, value.reference _ _ => none
  | value.native_function _, value.native_function _ => none
  | _, _ => some false

/-- The §4.5 equality as amended: false when the kinds differ; undefined and
null compare true; boolean by payload, number by IEEE equality or both NaN,
string by content, object by handle identity; comparing two references or
two native functions is not implemented and raises. -/
def specValueEq (l r : value) : Option Bool :=
  if kindOf l ≠ kindOf r then some false
  else
    match l, r with
    | value.undefined, _ => some true
    | value.null, _ => some true
    | value.boolean a, value.boolean b => some (a == b)
    | value.number a, value.number b => some (ieeeEq a b || (isNaNF a && isNaNF b))
    | value.string a, value.string b => some (a == b)
    | value.object a, value.object b => some (a == b)
    | value.reference _ _, value.reference _ _ => none
    | value.native_function _, value.native_function _ => none
    | _, _ => some false

/-- Embeds `value::operator=(value&&)`: the destination is destroyed, the
source's payload is transferred by kind, and the source's type is set to
`undefined`.  Returns (new destination, new source). -/
def moveAssign (dst src : value) : value × value :=
  match dst, src with
  | _, value.undefined => (value.undefined, value.undefined)
  | _, value.null => (value.null, value.undefined)
  | _, value.boolean b => (value.boolean b, value.undefined)
  | _, value.number n => (value.number n, value.undefined)
  | _, value.string s => (value.string s, value.undefined)
  | _, value.object o => (value.object o, value.undefined)
  | _, value.reference b p => (value.reference b p, value.undefined)
  | _, value.native_function f => (value.native_function f, value.undefined)

/-- Embeds `value::value(value&&)`: initialises the type to `undefined` and
move-assigns from the source. -/
def moveCtor (src : value) : value × value :=
  moveAssign value.undefined src

/-!  ## Tokens and operator precedence (parser.cpp)  -/

/-- The token kinds used by the parser (token.h is external to the embedded
core; the enum lists the kinds the parser dispatches on, plus the literal
kinds). -/
inductive token_type where
  | whitespace | line_terminator | identifier | string_literal | number_literal
  | semicolon | lparen | rparen | lbrace | rbrace | lbracket | rbracket
  | comma | dot | colon | question
  | plus | minus | multiply | divide | mod
  | lshift | rshift | rshiftshift
  | lt | ltequal | gt | gtequal | equalequal | notequal
  | and_ | or_ | xor_ | andand | oror | tilde | not_
  | equal | plusequal | minusequal | multiplyequal | divideequal | modequal
  | lshiftequal | rshiftequal | rshiftshiftequal | andequal | orequal | xorequal
  | plusplus | minusminus
  | delete_ | void_ | typeof_ | new_ | in_ | this_
  | var_ | if_ | else_ | while_ | for_ | continue_ | break_ | return_
  | with_ | function_ | eof
deriving DecidableEq

def assignment_precedence : ℕ := 15
def comma_precedence : ℕ := 16

/-- Embeds `operator_precedence(token_type)` (the switch in parser.cpp). -/
def operator_precedence : token_type → ℕ
  | token_type.multiply => 5
  | token_type.divide => 5
  | token_type.mod => 5
  | token_type.plus => 6
  | token_type.minus => 6
  | token_type.lshift => 7
  | token_type.rshift => 7
  | token_type.rshiftshift => 7
  | token_type.lt => 8
  | token_type.ltequal => 8
  | token_type.gt => 8
  | token_type.gtequal => 8
  | token_type.equalequal => 9
  | token_type.notequal => 9
  | token_type.and_ => 10
  | token_type.xor_ => 11
  | token_type.or_ => 12
  | token_type.andand => 13
  | token_type.oror => 13
  | token_type.question => assignment_precedence
  | token_type.equal => assignment_precedence
  | token_type.plusequal => assignment_precedence
  | token_type.minusequal => assignment_precedence
  | token_type.multiplyequal => assignment_precedence
  | token_type.divideequal => assignment_precedence
  | token_type.modequal => assignment_precedence
  | token_type.lshiftequal => assignment_precedence
  | token_type.rshiftequal => assignment_precedence
  | token_type.rshiftshiftequal => assignment_precedence
  | token_type.andequal => assignment_precedence
  | token_type.orequal => assignment_precedence
  | token_type.xorequal => assignment_precedence
  | token_type.comma => comma_precedence
  | _ => comma_precedence + 1

/-- Embeds `is_right_to_left(token_type)`. -/
def is_right_to_left (tt : token_type) : Bool :=
  decide (assignment_precedence ≤ operator_precedence tt)

/-- A lexer token: kind plus text payload (identifier names, literal text). -/
structure token where
  type : token_type
  text : String
deriving DecidableEq

def eofToken : token := ⟨token_type.eof, ""⟩

/-- A token is truthy iff it is not the end-of-file token (the `operator
bool` the parser tests after `accept`). -/
def tokTrue (t : token) : Bool := t.type ≠ token_type.eof

/-- Literal token kinds accepted by `parse_primary_expression` via
`is_literal` (token.h is external; the kinds needed here are the number and
string literals). -/
def is_literal : token_type → Bool
  | token_type.number_literal => true
  | token_type.string_literal => true
  | _ => false

/-!  ## Parser state

The lexer collaborator is modelled by the token list it would produce,
whitespace and line-terminator tokens included (the parser observes the
latter through `line_break_skipped_`).  Extent bookkeeping (the
position-stack machinery) is orthogonal to every claim about tree shape and
is omitted from the embedding.  -/

structure PState where
  toks : List token
  lineBreak : Bool
deriving DecidableEq

/-- The lexer's current token; at the end of input the lexer reports a
falsy (eof) token. -/
def cur (st : PState) : token := st.toks.headD eofToken

/-- Embeds `skip_whitespace`: consumes whitespace and line-terminator
tokens, recording in `line_break_skipped_` whether a line terminator was
seen. -/
def skipWs : List token → Bool → List token × Bool
  | t :: ts, lb =>
    if t.type = token_type.whitespace then skipWs ts lb
    else if t.type = token_type.line_terminator then skipWs ts true
    else (t :: ts, lb)
  | [], lb => ([], lb)

def skipWsSt (st : PState) : PState :=
  let p := skipWs st.toks st.lineBreak
  ⟨p.1, p.2⟩

/-- Embeds `get_token`: returns the current token, advances, clears
`line_break_skipped_`, then skips whitespace. -/
def getToken (st : PState) : token × PState :=
  match st.toks with
  | [] => (eofToken, st)
  | t :: ts => (t, skipWsSt ⟨ts, false⟩)

/-- Embeds `accept(tt)`: consumes and returns the current token when its
kind matches, otherwise returns the (falsy) eof token without consuming. -/
def paccept (st : PState) (tt : token_type) : token × PState :=
  if (cur st).type = tt then getToken st else (eofToken, st)

/-- Embeds `expect(tt)`: like `accept` but raises a syntax error when the
token does not match. -/
def pexpect (st : PState) (tt : token_type) : Except String (token × PState) :=
  let r := paccept st tt
  if tokTrue r.1 then Except.ok r else Except.error "Expected token"

/-- Embeds `expect_semicolon_allow_insertion`: when no line terminator was
skipped and the next token is neither `rbrace` nor eof, a literal semicolon
is required; otherwise an optional semicolon is accepted. -/
def expectSemicolon (st : PState) : Except String PState :=
  if ¬st.lineBreak ∧ (cur st).type ≠ token_type.rbrace ∧ (cur st).type ≠ token_type.eof then
    (pexpect st token_type.semicolon).map (fun r => r.2)
  else
    Except.ok (paccept st token_type.semicolon).2

/-!  ## AST  -/

/-- Expression trees (identifier_expression, literal_expression,
binary_expression, conditional_expression, prefix_expression,
postfix_expression, call_expression). -/
inductive expr where
  | ident : String → expr
  | lit : token → expr
  | binary : token_type → expr → expr → expr
  | cond : expr → expr → expr → expr
  | unaryPre : token_type → expr → expr
  | unaryPost : token_type → expr → expr
  | call : expr → List expr → expr

/-- Statement nodes. -/
inductive stmt where
  | block : List stmt → stmt
  | varDecl : List (String × Option expr) → stmt
  | empty : stmt
  | exprStmt : expr → stmt
  | ifStmt : expr → stmt → Option stmt → stmt
  | whileStmt : expr → stmt → stmt
  | forStmt : Option stmt → Option expr → Option expr → stmt → stmt
  | forIn : stmt → expr → stmt → stmt
  | continueStmt : stmt
  | breakStmt : stmt
  | returnStmt : Option expr → stmt
  | withStmt : expr → stmt → stmt
  | funcDef : String → List String → stmt → stmt

/-!  ## Expression parsing (parser.cpp)

The C++ parser's recursion is not structural over the token stream (e.g.
parenthesised expressions), so each function takes a fuel argument; every
nested call runs on decremented fuel, and exhausting fuel reports an error
(which never happens for the inputs considered, as the concrete theorems
show by evaluation).  -/

mutual

/-- Embeds `parse_primary_expression`. -/
def parsePrimary : ℕ → PState → Except String (expr × PState)
  | 0, _ => Except.error "fuel"
  | fuel + 1, st =>
    let rId := paccept st token_type.identifier
    if tokTrue rId.1 then Except.ok (expr.ident rId.1.text, rId.2)
    else
      let rThis := paccept st token_type.this_
      if tokTrue rThis.1 then Except.ok (expr.ident "this", rThis.2)
      else
        let rLp := paccept st token_type.lparen
        if tokTrue rLp.1 then do
          let (e, st1) ← parseExpression fuel rLp.2
          let (_, st2) ← pexpect st1 token_type.rparen
          Except.ok (e, st2)
        else if is_literal (cur st).type then
          let g := getToken st
          Except.ok (expr.lit g.1, g.2)
        else Except.error "Unhandled token in parse_primary_expression"

/-- Embeds `parse_postfix_expression`: no postfix `++`/`--` applies when a
line terminator was skipped after the operand. -/
def parsePostfix : ℕ → PState → Except String (expr × PState)
  | 0, _ => Except.error "fuel"
  | fuel + 1, st => do
    let (lhs, st1) ← parseLhs fuel st
    if st1.lineBreak then Except.ok (lhs, st1)
    else
      let t := (cur st1).type
      let r1 := paccept st1 token_type.plusplus
      if tokTrue r1.1 then Except.ok (expr.unaryPost t lhs, r1.2)
      else
        let r2 := paccept st1 token_type.minusminus
        if tokTrue r2.1 then Except.ok (expr.unaryPost t lhs, r2.2)
        else Except.ok (lhs, st1)

/-- Embeds `parse_unary_expression`. -/
def parseUnary : ℕ → PState → Except String (expr × PState)
  | 0, _ => Except.error "fuel"
  | fuel + 1, st =>
    let t := (cur st).type
    match t with
    | token_type.delete_ | token_type.void_ | token_type.typeof_
    | token_type.plusplus | token_type.minusminus
    | token_type.plus | token_type.minus | token_type.tilde | token_type.not_ => do
      let r := paccept st t
      let (e, st1) ← parseUnary fuel r.2
      Except.ok (expr.unaryPre t e, st1)
    | _ => parsePostfix fuel st

/-- Embeds the outer loop of `parse_expression1` (precedence climbing). -/
def parseExpr1 : ℕ → expr → ℕ → PState → Except String (expr × PState)
  | 0, _, _, _ => Except.error "fuel"
  | fuel + 1, lhs, outer, st =>
    let op := (cur st).type
    let prec := operator_precedence op
    if outer < prec then Except.ok (lhs, st)
    else
      let g := getToken st
      if op = token_type.question then do
        let (l, st1) ← parseAssignment fuel g.2
        let (_, st2) ← pexpect st1 token_type.colon
        let (r, st3) ← parseAssignment fuel st2
        parseExpr1 fuel (expr.cond lhs l r) outer st3
      else do
        let (rhs0, st1) ← parseUnary fuel g.2
        let (rhs, st2) ← parseExpr1Look fuel rhs0 prec st1
        parseExpr1 fuel (expr.binary op lhs rhs) outer st2

/-- Embeds the look-ahead loop inside `parse_expression1`: keeps absorbing
the right-hand side while the look-ahead token binds tighter, or binds
equally and is right-to-left associative. -/
def parseExpr1Look : ℕ → expr → ℕ → PState → Except String (expr × PState)
  | 0, _, _, _ => Except.error "fuel"
  | fuel + 1, rhs, prec, st =>
    let la := (cur st).type
    let lap := operator_precedence la
    if prec < lap ∨ (lap = prec ∧ is_right_to_left la = false) then Except.ok (rhs, st)
    else do
      let (rhs2, st1) ← parseExpr1 fuel rhs lap st
      parseExpr1Look fuel rhs2 prec st1

/-- Embeds `parse_assignment_expression`. -/
def parseAssignment : ℕ → PState → Except String (expr × PState)
  | 0, _ => Except.error "fuel"
  | fuel + 1, st => do
    let (u, st1) ← parseUnary fuel st
    parseExpr1 fuel u assignment_precedence st1

/-- Embeds `parse_expression`. -/
def parseExpression : ℕ → PState → Except String (expr × PState)
  | 0, _ => Except.error "fuel"
  | fuel + 1, st => do
    let (a, st1) ← parseAssignment fuel st
    parseExpr1 fuel a comma_precedence st1

/-- Embeds `parse_argument_list`. -/
def parseArgList : ℕ → PState → Except String (List expr × PState)
  | 0, _ => Except.error "fuel"
  | fuel + 1, st => do
    let (_, st1) ← pexpect st token_type.lparen
    let rRp := paccept st1 token_type.rparen
    if tokTrue rRp.1 then Except.ok ([], rRp.2)
    else do
      let (l, st2) ← parseArgsLoop fuel st1
      let (_, st3) ← pexpect st2 token_type.rparen
      Except.ok (l, st3)

/-- The do/while loop of `parse_argument_list`. -/
def parseArgsLoop : ℕ → PState → Except String (List expr × PState)
  | 0, _ => Except.error "fuel"
  | fuel + 1, st => do
    let (e, st1) ← parseAssignment fuel st
    let rC := paccept st1 token_type.comma
    if tokTrue rC.1 then do
      let (rest, st2) ← parseArgsLoop fuel rC.2
      Except.ok (e :: rest, st2)
    else Except.ok ([e], st1)

/-- Embeds `parse_member_expression` (head: `new` or primary). -/
def parseMember : ℕ → PState → Except String (expr × PState)
  | 0, _ => Except.error "fuel"
  | fuel + 1, st =>
    let rNew := paccept st token_type.new_
    if tokTrue rNew.1 then do
      let (e0, st1) ← parseMember fuel rNew.2
      let (e1, st2) ←
        if (cur st1).type = token_type.lparen then do
          let (args, st2) ← parseArgList fuel st1
          Except.ok (expr.call e0 args, st2)
        else Except.ok (e0, st1)
      parseMemberChain fuel (expr.unaryPre token_type.new_ e1) st2
    else do
      let (p, st1) ← parsePrimary fuel st
      parseMemberChain fuel p st1

/-- The `[expression]` / `.identifier` chain loop of
`parse_member_expression` (a dot access desugars to an index with a string
literal). -/
def parseMemberChain : ℕ → expr → PState → Except String (expr × PState)
  | 0, _, _ => Except.error "fuel"
  | fuel + 1, me, st =>
    let rB := paccept st token_type.lbracket
    if tokTrue rB.1 then do
      let (e, st1) ← parseExpression fuel rB.2
      let (_, st2) ← pexpect st1 token_type.rbracket
      parseMemberChain fuel (expr.binary token_type.lbracket me e) st2
    else
      let rD := paccept st token_type.dot
      if tokTrue rD.1 then do
        let (idTok, st1) ← pexpect rD.2 token_type.identifier
        parseMemberChain fuel
          (expr.binary token_type.dot me (expr.lit ⟨token_type.string_literal, idTok.text⟩)) st1
      else Except.ok (me, st)

/-- Embeds `parse_left_hand_side_expression`. -/
def parseLhs : ℕ → PState → Except String (expr × PState)
  | 0, _ => Except.error "fuel"
  | fuel + 1, st => do
    let (m, st1) ← parseMember fuel st
    parseLhsChain fuel m st1

/-- The call / `[expression]` / `.identifier` chain loop of
`parse_left_hand_side_expression`. -/
def parseLhsChain : ℕ → expr → PState → Except String (expr × PState)
  | 0, _, _ => Except.error "fuel"
  | fuel + 1, m, st =>
    if (cur st).type = token_type.lparen then do
      let (args, st1) ← parseArgList fuel st
      parseLhsChain fuel (expr.call m args) st1
    else
      let rB := paccept st token_type.lbracket
      if tokTrue rB.1 then do
        let (e, st1) ← parseExpression fuel rB.2
        let (_, st2) ← pexpect st1 token_type.rbracket
        parseLhsChain fuel (expr.binary token_type.lbracket m e) st2
      else
        let rD := paccept st token_type.dot
        if tokTrue rD.1 then do
          let (idTok, st1) ← pexpect rD.2 token_type.identifier
          parseLhsChain fuel
            (expr.binary token_type.dot m (expr.lit ⟨token_type.string_literal, idTok.text⟩)) st1
        else Except.ok (m, st)

end

/-!  ## Statement parsing (parser.cpp)  -/

mutual

/-- Embeds `parse_block`. -/
def parseBlock : ℕ → PState → Except String (stmt × PState)
  | 0, _ => Except.error "fuel"
  | fuel + 1, st => do
    let (_, st1) ← pexpect st token_type.lbrace
    let (l, st2) ← parseBlockLoop fuel st1
    Except.ok (stmt.block l, st2)

/-- The statement loop of `parse_block`, running until `}` is accepted. -/
def parseBlockLoop : ℕ → PState → Except String (List stmt × PState)
  | 0, _ => Except.error "fuel"
  | fuel + 1, st =>
    let rRb := paccept st token_type.rbrace
    if tokTrue rRb.1 then Except.ok ([], rRb.2)
    else do
      let (s, st1) ← parseStmtOrFunc fuel st
      let (rest, st2) ← parseBlockLoop fuel st1
      Except.ok (s :: rest, st2)

/-- Embeds `parse_variable_declaration_list` (the do/while over `,`). -/
def parseVarDeclList : ℕ → PState → Except String (List (String × Option expr) × PState)
  | 0, _ => Except.error "fuel"
  | fuel + 1, st => do
    let (idTok, st1) ← pexpect st token_type.identifier
    let rEq := paccept st1 token_type.equal
    let (init, st2) ←
      if tokTrue rEq.1 then do
        let (e, s) ← parseAssignment fuel rEq.2
        Except.ok (some e, s)
      else Except.ok (none, st1)
    let rC := paccept st2 token_type.comma
    if tokTrue rC.1 then do
      let (rest, st3) ← parseVarDeclList fuel rC.2
      Except.ok ((idTok.text, init) :: rest, st3)
    else Except.ok ([(idTok.text, init)], st2)

/-- The tail of the three-part `for` statement: optional condition up to
`;`, optional iteration expression up to `)`, then the body. -/
def parseForTail : ℕ → Option stmt → PState → Except String (stmt × PState)
  | 0, _, _ => Except.error "fuel"
  | fuel + 1, init, st => do
    let rS := paccept st token_type.semicolon
    let (cond, st1) ←
      if tokTrue rS.1 then Except.ok (none, rS.2)
      else do
        let (e, s) ← parseExpression fuel st
        let (_, s1) ← pexpect s token_type.semicolon
        Except.ok (some e, s1)
    let rRp := paccept st1 token_type.rparen
    let (iter, st2) ←
      if tokTrue rRp.1 then Except.ok (none, rRp.2)
      else do
        let (e, s) ← parseExpression fuel st1
        let (_, s1) ← pexpect s token_type.rparen
        Except.ok (some e, s1)
    let (body, st3) ← parseStatement fuel st2
    Except.ok (stmt.forStmt init cond iter body, st3)

/-- Embeds `parse_statement`: the full dispatch over block, `var`, empty,
`if`, `while`, `for` (three-part and for-in), `continue`, `break`,
`return`, `with`, and the expression-statement default. -/
def parseStatement : ℕ → PState → Except String (stmt × PState)
  | 0, _ => Except.error "fuel"
  | fuel + 1, st =>
    if (cur st).type = token_type.lbrace then parseBlock fuel st
    else
      let rVar := paccept st token_type.var_
      if tokTrue rVar.1 then do
        let (dl, st1) ← parseVarDeclList fuel rVar.2
        let st2 ← expectSemicolon st1
        Except.ok (stmt.varDecl dl, st2)
      else if (cur st).type = token_type.semicolon then
        let g := getToken st
        Except.ok (stmt.empty, g.2)
      else
        let rIf := paccept st token_type.if_
        if tokTrue rIf.1 then do
          let (_, s1) ← pexpect rIf.2 token_type.lparen
          let (c, s2) ← parseExpression fuel s1
          let (_, s3) ← pexpect s2 token_type.rparen
          let (ifS, s4) ← parseStatement fuel s3
          let s5 := (paccept s4 token_type.semicolon).2
          let rElse := paccept s5 token_type.else_
          let (elseS, s6) ←
            if tokTrue rElse.1 then do
              let (e, s) ← parseStatement fuel rElse.2
              Except.ok (some e, s)
            else Except.ok (none, s5)
          Except.ok (stmt.ifStmt c ifS elseS, s6)
        else
          let rWhile := paccept st token_type.while_
          if tokTrue rWhile.1 then do
            let (_, s1) ← pexpect rWhile.2 token_type.lparen
            let (c, s2) ← parseExpression fuel s1
            let (_, s3) ← pexpect s2 token_type.rparen
            let (b, s4) ← parseStatement fuel s3
            Except.ok (stmt.whileStmt c b, s4)
          else
            let rFor := paccept st token_type.for_
            if tokTrue rFor.1 then do
              let (_, s1) ← pexpect rFor.2 token_type.lparen
              let rS := paccept s1 token_type.semicolon
              if tokTrue rS.1 then parseForTail fuel none rS.2
              else do
                let rV := paccept s1 token_type.var_
                let (init, s2) ←
                  if tokTrue rV.1 then do
                    let (dl, s) ← parseVarDeclList fuel rV.2
                    Except.ok (stmt.varDecl dl, s)
                  else do
                    let (e, s) ← parseExpression fuel s1
                    Except.ok (stmt.exprStmt e, s)
                let rIn := paccept s2 token_type.in_
                if tokTrue rIn.1 then
                  if (match init with
                      | stmt.varDecl l => l.length != 1
                      | _ => false) then
                    Except.error "Unhandled token in parse_statement"
                  else do
                    let (e, s3) ← parseExpression fuel rIn.2
                    let (_, s4) ← pexpect s3 token_type.rparen
                    let (body, s5) ← parseStatement fuel s4
                    Except.ok (stmt.forIn init e body, s5)
                else do
                  let (_, s3) ← pexpect s2 token_type.semicolon
                  parseForTail fuel (some init) s3
            else
              let rCont := paccept st token_type.continue_
              if tokTrue rCont.1 then do
                let st1 ← expectSemicolon rCont.2
                Except.ok (stmt.continueStmt, st1)
              else
                let rBreak := paccept st token_type.break_
                if tokTrue rBreak.1 then do
                  let st1 ← expectSemicolon rBreak.2
                  Except.ok (stmt.breakStmt, st1)
                else
                  let rRet := paccept st token_type.return_
                  if tokTrue rRet.1 then do
                    let st1 := rRet.2
                    let (e, st2) ←
                      if st1.lineBreak = false then
                        if (cur st1).type ≠ token_type.semicolon then do
                          let (e, s) ← parseExpression fuel st1
                          Except.ok (some e, s)
                        else Except.ok (none, st1)
                      else Except.ok (none, st1)
                    let st3 ← expectSemicolon st2
                    Except.ok (stmt.returnStmt e, st3)
                  else
                    let rWith := paccept st token_type.with_
                    if tokTrue rWith.1 then do
                      let (_, s1) ← pexpect rWith.2 token_type.lparen
                      let (e, s2) ← parseExpression fuel s1
                      let (_, s3) ← pexpect s2 token_type.rparen
                      let (b, s4) ← parseStatement fuel s3
                      Except.ok (stmt.withStmt e b, s4)
                    else do
                      let (e, s1) ← parseExpression fuel st
                      let s2 ← expectSemicolon s1
                      Except.ok (stmt.exprStmt e, s2)

/-- The parameter list loop of `parse_function`. -/
def parseParamsLoop : ℕ → PState → Except String (List String × PState)
  | 0, _ => Except.error "fuel"
  | fuel + 1, st => do
    let (p, st1) ← pexpect st token_type.identifier
    let rC := paccept st1 token_type.comma
    if tokTrue rC.1 then do
      let (rest, st2) ← parseParamsLoop fuel rC.2
      Except.ok (p.text :: rest, st2)
    else Except.ok ([p.text], st1)

/-- Embeds `parse_function` (the source-extent recording is omitted). -/
def parseFunction : ℕ → PState → Except String (stmt × PState)
  | 0, _ => Except.error "fuel"
  | fuel + 1, st => do
    let (_, s1) ← pexpect st token_type.function_
    let (idTok, s2) ← pexpect s1 token_type.identifier
    let (_, s3) ← pexpect s2 token_type.lparen
    let rRp := paccept s3 token_type.rparen
    let (params, s4) ←
      if tokTrue rRp.1 then Except.ok ([], rRp.2)
      else do
        let (ps, s) ← parseParamsLoop fuel s3
        let (_, s1) ← pexpect s token_type.rparen
        Except.ok (ps, s1)
    let (body, s5) ← parseBlock fuel s4
    Except.ok (stmt.funcDef idTok.text params body, s5)

/-- Embeds `parse_statement_or_function_declaration`. -/
def parseStmtOrFunc : ℕ → PState → Except String (stmt × PState)
  | 0, _ => Except.error "fuel"
  | fuel + 1, st =>
    let st1 := skipWsSt st
    if (cur st1).type = token_type.function_ then parseFunction fuel st1
    else parseStatement fuel st1

/-- Embeds the top-level loop of `parser::parse`. -/
def parseTop : ℕ → PState → Except String (List stmt)
  | 0, _ => Except.error "fuel"
  | fuel + 1, st =>
    if tokTrue (cur st) then do
      let (s, st1) ← parseStmtOrFunc fuel st
      let rest ← parseTop fuel st1
      Except.ok (s :: rest)
    else Except.ok []

end

/-- Runs the parser over a token stream with the given fuel. -/
def parseProgram (fuel : ℕ) (toks : List token) : Except String (List stmt) :=
  parseTop fuel ⟨toks, false⟩

/-!  ## Number formatting (value.cpp, `do_format_double` / `to_string(double)`)

The digit-extraction library routine `ecvt(m, k)` (correctly rounded to `k`
significant decimal digits, ties to even in glibc) and the parse-back
`istringstream >> t` (correctly rounded decimal-to-double) are modelled
exactly over ℚ: `renderDigits` extracts the `k` rounded digits and the
decimal-point position, `roundF64pos` rounds a positive rational to the
nearest binary64 grid value.  -/

/-- Fuel-driven integer logarithm: `nlogf b f n` is the number of times `n`
can be divided by `b` before dropping below `b` (for `2 ≤ b`, `n ≤ f`). -/
def nlogf (b : ℕ) : ℕ → ℕ → ℕ
  | 0, _ => 0
  | f + 1, n => if b ≤ n then nlogf b f (n / b) + 1 else 0

/-- Largest `l` with `b^l ≤ n` (for `2 ≤ b`, `1 ≤ n < b^2500`; the fixed
fuel 2500 covers every numerator and denominator that can arise from
binary64 values and their decimal renderings, while keeping the definition
cheaply evaluable). -/
def natFlog (b n : ℕ) : ℕ := nlogf b 2500 n

/-- Floor logarithm of a positive rational in base `b`. -/
def flogQ (b : ℕ) (q : ℚ) : ℤ :=
  let c : ℤ := (natFlog b q.num.toNat : ℤ) - (natFlog b q.den : ℤ)
  if (b : ℚ) ^ c ≤ q then c else c - 1

/-- Round half to even: the nearest integer, ties going to the even one. -/
def rhe (x : ℚ) : ℤ :=
  let f := ⌊x⌋
  let r := x - f
  if r < 1 / 2 then f
  else if 1 / 2 < r then f + 1
  else if f % 2 = 0 then f else f + 1

/-- Correctly-rounded conversion of a positive rational to the binary64
grid (round to nearest, ties to even); models the `istringstream` parse of
a decimal literal back into a `double`. -/
def roundF64pos (r : ℚ) : ℚ :=
  let L := flogQ 2 r
  let e := max (-1074) (L - 52)
  (rhe (r / 2 ^ e) : ℚ) * 2 ^ e

/-- Models `ecvt(m, k)` for positive finite `m`: returns `(D, n)` where the
`k` digits of `D` (`10^(k-1) ≤ D < 10^k`) are the correctly rounded
`k`-significant-digit rendering of `m` and `n` is the decimal point
position, so the rendered value is `D·10^(n-k)`.  When rounding carries all
the way up (`D = 10^k`) the digit string is `10…0` and the point moves one
place right. -/
def renderDigits (q : ℚ) (k : ℕ) : ℤ × ℤ :=
  let d := flogQ 10 q
  let D := rhe (q / 10 ^ (d + 1 - k))
  if D = 10 ^ k then (10 ^ (k - 1), d + 2) else (D, d + 1)

/-- Exact value of the `k`-significant-digit rendering of `q`. -/
def renderValue (q : ℚ) (k : ℕ) : ℚ :=
  ((renderDigits q k).1 : ℚ) * 10 ^ ((renderDigits q k).2 - k)

/-- The loop test of `to_string(double)`: does the `k`-digit rendering of
`q` parse back to exactly `q`? -/
def roundTrips (q : ℚ) (k : ℕ) : Bool :=
  roundF64pos (renderValue q k) == q

/-- The search loop of `to_string(double)`: the smallest `k` in `[1,17]`
whose rendering round-trips, scanned in increasing order. -/
def findKaux (q : ℚ) : ℕ → ℕ → Option ℕ
  | 0, _ => none
  | f + 1, k => if roundTrips q k then some k else findKaux q f (k + 1)

def findK (q : ℚ) : Option ℕ := findKaux q 17 1

/-- Big-endian decimal digit list of a natural number (fuel-driven). -/
def natToDigitsAux : ℕ → ℕ → List ℕ
  | 0, _ => []
  | f + 1, n => if n < 10 then [n] else natToDigitsAux f (n / 10) ++ [n % 10]

/-- Digits of `n < 10^20` (fixed fuel 20: at most 17 mantissa digits or a
3-digit exponent ever reach this). -/
def natToDigits (n : ℕ) : List ℕ := natToDigitsAux 20 n

def digitChar (d : ℕ) : Char := Char.ofNat (48 + d)
def charDigit (c : Char) : ℕ := c.toNat - 48

/-- The formatting cases 6-10 of `do_format_double`, over the digit list
`s` and decimal point position `n` produced by the digit extraction. -/
def fmtDigits (s : List ℕ) (n : ℤ) : List Char :=
  let k : ℤ := s.length
  if k ≤ n ∧ n ≤ 21 then (s.map digitChar) ++ List.replicate (n - k).toNat '0'
  else if 0 < n ∧ n ≤ 21 then
    ((s.take n.toNat).map digitChar) ++ '.' :: ((s.drop n.toNat).map digitChar)
  else if -6 < n ∧ n ≤ 0 then
    '0' :: '.' :: (List.replicate (-n).toNat '0' ++ s.map digitChar)
  else if k = 1 then
    (s.map digitChar) ++ 'e' :: (if 0 ≤ n - 1 then '+' else '-') :: (natToDigits (n - 1).natAbs).map digitChar
  else
    match s with
    | [] => []
    | d :: rest =>
      digitChar d :: '.' ::
        (rest.map digitChar ++ 'e' :: (if 0 ≤ n - 1 then '+' else '-') :: (natToDigits (n - 1).natAbs).map digitChar)

/-- Embeds `do_format_double(m, k)` for positive finite `m`: extract the
`k` rounded digits and point position via `ecvt` (modelled by
`renderDigits`) and format them. -/
def do_format_double (q : ℚ) (k : ℕ) : List Char :=
  let p := renderDigits q k
  fmtDigits (natToDigits p.1.toNat) p.2

/-- The positive-finite path of `to_string(double)`: try `k = 1..17` until
the rendering parses back to `q` exactly, then format with that `k`.
`none` models the unreachable `assert(false); NOT_IMPLEMENTED` tail. -/
def to_stringPos (q : ℚ) : Option (List Char) :=
  (findK q).map (fun k => do_format_double q k)

/-- Embeds `to_string(double)`: NaN, both zeroes, negatives (recursing on
the magnitude with a minus sign prepended — the infinite case reaches the
`Infinity` branch through that recursion) and infinity, then the
shortest-round-trip search. -/
def to_stringChars : F64 → Option (List Char)
  | F64.nan => some "NaN".data
  | F64.negZero => some "0".data
  | F64.inf b => if b then some ('-' :: "Infinity".data) else some "Infinity".data
  | F64.fin q =>
    if q = 0 then some "0".data
    else if q < 0 then (to_stringPos (-q)).map (fun s => '-' :: s)
    else to_stringPos q

def to_string (m : F64) : Option String := (to_stringChars m).map String.mk

/-!  ## String to number (spec-modelled)

`to_number(const value&)` dispatches its string case to
`to_number(const string&)`, whose implementation (string.cpp) is not part
of the embedded sources.  Modelled from the spec: "string →
parse-number-grammar" (§4.5); the grammar is the ECMAScript string numeric
literal: an optional sign applied to either `Infinity` or a decimal
literal `digits [. digits] [(e|E) [sign] digits]`, the empty string
denoting zero, anything unparseable denoting NaN; the decimal value is
converted to the nearest double.  (Whitespace trimming and hex literals
are never exercised by the strings `to_string` produces and are left out.)
-/

/-- Big-endian digit-list value. -/
def ofDigBE (l : List ℕ) : ℕ := l.foldl (fun a d => 10 * a + d) 0

/-- Parses the exponent part after `e`/`E`: optional sign then digits. -/
def parseExponent (mant : ℚ) (t : List Char) : Option ℚ :=
  let sgn : Bool × List Char :=
    match t with
    | '+' :: u => (false, u)
    | '-' :: u => (true, u)
    | _ => (false, t)
  let ds := sgn.2
  if ds = [] ∨ ¬(ds.all Char.isDigit = true) then none
  else
    let ev : ℤ := (ofDigBE (ds.map charDigit) : ℤ)
    some (mant * 10 ^ (if sgn.1 then -ev else ev))

/-- Parses an unsigned decimal literal `digits [. digits] [exponent]`,
requiring at least one digit and full consumption of the input. -/
def parseUnsigned (s : List Char) : Option ℚ :=
  let ip := s.takeWhile Char.isDigit
  let r1 := s.dropWhile Char.isDigit
  let fpr : List Char × List Char :=
    match r1 with
    | '.' :: t => (t.takeWhile Char.isDigit, t.dropWhile Char.isDigit)
    | _ => ([], r1)
  let fp := fpr.1
  let r2 := fpr.2
  if ip = [] ∧ fp = [] then none
  else
    let mant : ℚ := (ofDigBE (ip.map charDigit) : ℚ) + (ofDigBE (fp.map charDigit) : ℚ) / 10 ^ fp.length
    match r2 with
    | [] => some mant
    | 'e' :: t => parseExponent mant t
    | 'E' :: t => parseExponent mant t
    | _ => none

/-- IEEE negation of a double. -/
def negF64 : F64 → F64
  | F64.nan => F64.nan
  | F64.inf b => F64.inf (!b)
  | F64.negZero => F64.fin 0
  | F64.fin q => if q = 0 then F64.negZero else F64.fin (-q)

/-- Conversion of the parse result: an unparseable string denotes NaN, a
parsed decimal is rounded to the nearest double (zero staying +0). -/
def finOfParsed : Option ℚ → F64
  | some q => if q = 0 then F64.fin 0 else F64.fin (roundF64pos q)
  | none => F64.nan

/-- The unsigned part of the string-to-number conversion: `Infinity`, or a
decimal literal rounded to the nearest double. -/
def to_numberPos (s : List Char) : F64 :=
  if s = "Infinity".data then F64.inf false else finOfParsed (parseUnsigned s)

/-- Modelled from the spec: `ToNumber` on a string (§4.5
"string→parse-number-grammar"; implementation absent from the embedded
sources).  Empty → +0; optional sign; `Infinity` or decimal literal;
otherwise NaN. -/
def to_numberStr (s : List Char) : F64 :=
  match s with
  | [] => F64.fin 0
  | c :: t =>
    if c = '-' then negF64 (to_numberPos t)
    else if c = '+' then to_numberPos t
    else to_numberPos (c :: t)

def to_number (s : String) : F64 := to_numberStr s.data

/-!  ## Packed one-slot values (gc_heap.h, `value_representation`)

`to_representation` / `get_value` are declared in gc_heap.h but their
implementation (gc_heap.cpp) is not among the embedded sources.  Modelled
from the spec (§3, §4.4): a 64-bit NaN-boxed tagged word.  A non-NaN double
is its own bit pattern; every NaN is canonicalised to the quiet-NaN pattern
`0x7FF8000000000000`; the other kinds are boxed as quiet-NaN patterns with
a 3-bit tag in bits 48-50 and a 48-bit payload (a heap slot index, a
boolean, or — for the two-component reference — two 24-bit slot indices).
Unpacking against the owning heap rebinds handle payloads to that heap, so
handles are modelled by their slot index alone. -/

/-- The scripting-value inhabitants of the packed representation.  The
number carries its 64-bit pattern (the claim's equality is bit-exact);
string/object/native-function carry their handle's slot index; a reference
carries its base and property-name handle indices. -/
inductive gvalue where
  | undefined : gvalue
  | null : gvalue
  | boolean : Bool → gvalue
  | number : ℕ → gvalue
  | string : ℕ → gvalue
  | object : ℕ → gvalue
  | reference : ℕ → ℕ → gvalue
  | native_function : ℕ → gvalue
deriving DecidableEq

/-- The canonical quiet-NaN pattern `0x7FF8000000000000`. -/
def QNAN : ℕ := 9221120237041090560

/-- Does a 64-bit pattern denote a NaN (exponent field all ones, non-zero
mantissa)? -/
def nanBits (w : ℕ) : Bool :=
  decide (w / 2 ^ 52 % 2 ^ 11 = 2047) && decide (w % 2 ^ 52 ≠ 0)

def boxTagPayload (tag payload : ℕ) : ℕ := QNAN + tag * 2 ^ 48 + payload

/-- Modelled from the spec: `value_representation::to_representation`
(pack). -/
def to_representation : gvalue → ℕ
  | gvalue.number w => if nanBits w then QNAN else w
  | gvalue.undefined => boxTagPayload 1 0
  | gvalue.null => boxTagPayload 2 0
  | gvalue.boolean b => boxTagPayload 3 (if b then 1 else 0)
  | gvalue.string h => boxTagPayload 4 h
  | gvalue.object h => boxTagPayload 5 h
  | gvalue.reference b nm => boxTagPayload 6 (b + nm * 2 ^ 24)
  | gvalue.native_function h => boxTagPayload 7 h

/-- Modelled from the spec: `value_representation::get_value` (unpack
against the owning heap). -/
def get_value (w : ℕ) : gvalue :=
  if QNAN ≤ w ∧ w < QNAN + 2 ^ 51 then
    let tag := w / 2 ^ 48 % 8
    let payload := w % 2 ^ 48
    if tag = 1 then gvalue.undefined
    else if tag = 2 then gvalue.null
    else if tag = 3 then gvalue.boolean (payload = 1)
    else if tag = 4 then gvalue.string payload
    else if tag = 5 then gvalue.object payload
    else if tag = 6 then gvalue.reference (payload % 2 ^ 24) (payload / 2 ^ 24)
    else if tag = 7 then gvalue.native_function payload
    else gvalue.number QNAN
  else gvalue.number w

/-- The §4.5 equality specialised as the claim reads it: identity for the
object, reference and native-function handles, bit-exact for numbers with
any NaN equal to any NaN, content (here: handle) for strings, payload for
booleans, true for undefined and null, false across kinds. -/
def gvalueEq : gvalue → gvalue → Bool
  | gvalue.undefined, gvalue.undefined => true
  | gvalue.null, gvalue.null => true
  | gvalue.boolean a, gvalue.boolean b => a == b
  | gvalue.number a, gvalue.number b => a == b || (nanBits a && nanBits b)
  | gvalue.string a, gvalue.string b => a == b
  | gvalue.object a, gvalue.object b => a == b
  | gvalue.reference a b, gvalue.reference c d => a == c && b == d
  | gvalue.native_function a, gvalue.native_function b => a == b
  | _, _ => false

/-- Well-formedness of a packable value: the number pattern fits 64 bits,
handle indices fit the 48-bit payload, the two reference components fit 24
bits each. -/
def WfG : gvalue → Prop
  | gvalue.number w => w < 2 ^ 64
  | gvalue.string h => h < 2 ^ 48
  | gvalue.object h => h < 2 ^ 48
  | gvalue.native_function h => h < 2 ^ 48
  | gvalue.reference b nm => b < 2 ^ 24 ∧ nm < 2 ^ 24
  | _ => True

/-!  ## Auxiliary definitions for the statements of the claims  -/

/-- The §4.6 operator precedence table as the spec writes it.  The entry
`? :` denotes the conditional operator, listed at its `?` token (the colon
is consumed directly by the conditional production and is not an infix
operator, so it falls under "∞ otherwise"); ∞ is modelled by the sentinel
17, one looser than the loosest genuine row. -/
def spec_operator_precedence : token_type → ℕ
  | token_type.multiply | token_type.divide | token_type.mod => 5
  | token_type.plus | token_type.minus => 6
  | token_type.lshift | token_type.rshift | token_type.rshiftshift => 7
  | token_type.lt | token_type.ltequal | token_type.gt | token_type.gtequal => 8
  | token_type.equalequal | token_type.notequal => 9
  | token_type.and_ => 10
  | token_type.xor_ => 11
  | token_type.or_ => 12
  | token_type.andand | token_type.oror => 13
  | token_type.question | token_type.equal | token_type.plusequal
  | token_type.minusequal | token_type.multiplyequal | token_type.divideequal
  | token_type.modequal | token_type.lshiftequal | token_type.rshiftequal
  | token_type.rshiftshiftequal | token_type.andequal | token_type.orequal
  | token_type.xorequal => 15
  | token_type.comma => 16
  | _ => 17

/-- A number-literal token. -/
def numTok (s : String) : token := ⟨token_type.number_literal, s⟩

/-- An identifier token. -/
def idTok (s : String) : token := ⟨token_type.identifier, s⟩

/-- A bare operator/keyword token. -/
def opTok (tt : token_type) : token := ⟨tt, ""⟩

/-- The binary64 value of the literal `0.1`:
`7205759403792794 × 2^(-56)`, the double nearest to one tenth. -/
def double01 : ℚ := 7205759403792794 / 72057594037927936

/-!  # Theorems  -/

set_option maxRecDepth 40000

/-- C10: move-construction and move-assignment transfer the source's
payload to the destination and always leave the moved-from value holding
kind `undefined`. -/
theorem c10_move_leaves_undefined :
    ∀ d s : value, moveAssign d s = (s, value.undefined) ∧ moveCtor s = (s, value.undefined) := by
  intro d s
  cases s <;> simp [moveAssign, moveCtor]

/-- C5 counterexample: the claim says native functions compare by identity,
but `operator==` on two native-function values reaches `NOT_IMPLEMENTED`
and throws (modelled by `none`), so it does not return true even on an
identical pair. -/
theorem c5_counterexample :
    valueEq (value.native_function 0) (value.native_function 0) ≠ some true := by
  decide

/-- C5 as amended: equality is false whenever the kinds differ, true for
undefined and null, by payload for booleans, IEEE-or-both-NaN for numbers,
by content for strings, by handle identity for objects — and raises
(`NOT_IMPLEMENTED`) for references and for native functions. -/
theorem c5_value_equality : ∀ l r : value, valueEq l r = specValueEq l r := by
  intro l r
  cases l <;> cases r <;> rfl

/-- C6: the parser climbs precedences with the §4.6 table (`? :` being the
conditional operator's entry), a token is right-to-left associative iff its
precedence is at least 15, and the three example sources parse to
`((1+(2*3))==7)`, `a=(b=c)` and `a?b:(c?d:e)`. -/
theorem c6_precedence_climbing :
    (∀ tt, operator_precedence tt = spec_operator_precedence tt) ∧
    (∀ tt, is_right_to_left tt = decide (15 ≤ operator_precedence tt)) ∧
    parseProgram 32 [numTok "1", opTok token_type.plus, numTok "2",
        opTok token_type.multiply, numTok "3", opTok token_type.equalequal, numTok "7"] =
      Except.ok [stmt.exprStmt (expr.binary token_type.equalequal
        (expr.binary token_type.plus (expr.lit (numTok "1"))
          (expr.binary token_type.multiply (expr.lit (numTok "2")) (expr.lit (numTok "3"))))
        (expr.lit (numTok "7")))] ∧
    parseProgram 32 [idTok "a", opTok token_type.equal, idTok "b",
        opTok token_type.equal, idTok "c"] =
      Except.ok [stmt.exprStmt (expr.binary token_type.equal (expr.ident "a")
        (expr.binary token_type.equal (expr.ident "b") (expr.ident "c")))] ∧
    parseProgram 32 [idTok "a", opTok token_type.question, idTok "b",
        opTok token_type.colon, idTok "c", opTok token_type.question, idTok "d",
        opTok token_type.colon, idTok "e"] =
      Except.ok [stmt.exprStmt (expr.cond (expr.ident "a") (expr.ident "b")
        (expr.cond (expr.ident "c") (expr.ident "d") (expr.ident "e")))] := by
  refine ⟨fun tt => ?_, fun tt => rfl, rfl, rfl, rfl⟩
  cases tt <;> rfl

/-- C8: a line terminator suppresses a following postfix `++`/`--` and a
`return` expression: `return\n1` is an expressionless return followed by
the expression statement `1`, `a\n++b` is two statements (the second a
prefix increment), and `a++\nb` is `a++; b;`. -/
theorem c8_asi_line_terminators :
    parseProgram 32 [opTok token_type.return_, opTok token_type.line_terminator, numTok "1"] =
      Except.ok [stmt.returnStmt none, stmt.exprStmt (expr.lit (numTok "1"))] ∧
    parseProgram 32 [idTok "a", opTok token_type.line_terminator,
        opTok token_type.plusplus, idTok "b"] =
      Except.ok [stmt.exprStmt (expr.ident "a"),
        stmt.exprStmt (expr.unaryPre token_type.plusplus (expr.ident "b"))] ∧
    parseProgram 32 [idTok "a", opTok token_type.plusplus,
        opTok token_type.line_terminator, idTok "b"] =
      Except.ok [stmt.exprStmt (expr.unaryPost token_type.plusplus (expr.ident "a")),
        stmt.exprStmt (expr.ident "b")] :=
  ⟨rfl, rfl, rfl⟩

/-- C7: whenever a semicolon is required, it is optional (and consumed when
present) if a line terminator was skipped, or the next token is `}`, or the
stream is at end of input; otherwise a literal semicolon is consumed when
present and a syntax error is raised when absent.  The last seven conjuncts
exercise the three modes through whole parses. -/
theorem c7_semicolon_insertion :
    (∀ st : PState,
      (st.lineBreak = true ∨ (cur st).type = token_type.rbrace ∨
          (cur st).type = token_type.eof) →
        expectSemicolon st = Except.ok (paccept st token_type.semicolon).2) ∧
    (∀ st : PState,
      ¬(st.lineBreak = true ∨ (cur st).type = token_type.rbrace ∨
          (cur st).type = token_type.eof) →
        ((cur st).type = token_type.semicolon →
          expectSemicolon st = Except.ok (getToken st).2) ∧
        ((cur st).type ≠ token_type.semicolon →
          expectSemicolon st = Except.error "Expected token")) ∧
    parseProgram 32 [opTok token_type.var_, opTok token_type.whitespace, idTok "x"] =
      Except.ok [stmt.varDecl [("x", none)]] ∧
    parseProgram 32 [opTok token_type.var_, opTok token_type.whitespace, idTok "x",
        opTok token_type.whitespace, numTok "1"] = Except.error "Expected token" ∧
    parseProgram 32 [opTok token_type.lbrace, idTok "a", opTok token_type.whitespace,
        idTok "b", opTok token_type.rbrace] = Except.error "Expected token" ∧
    parseProgram 32 [opTok token_type.lbrace, idTok "a", opTok token_type.semicolon,
        idTok "b", opTok token_type.rbrace] =
      Except.ok [stmt.block [stmt.exprStmt (expr.ident "a"), stmt.exprStmt (expr.ident "b")]] ∧
    parseProgram 32 [opTok token_type.lbrace, idTok "a", opTok token_type.line_terminator,
        idTok "b", opTok token_type.rbrace] =
      Except.ok [stmt.block [stmt.exprStmt (expr.ident "a"), stmt.exprStmt (expr.ident "b")]] ∧
    parseProgram 32 [opTok token_type.lbrace, idTok "a", opTok token_type.rbrace] =
      Except.ok [stmt.block [stmt.exprStmt (expr.ident "a")]] ∧
    parseProgram 32 [idTok "a"] = Except.ok [stmt.exprStmt (expr.ident "a")] := by
  refine ⟨?_, ?_, rfl, rfl, rfl, rfl, rfl, rfl, rfl⟩
  · intro st h
    rw [expectSemicolon, if_neg]
    intro hc
    rcases h with h | h | h
    · exact hc.1 h
    · exact hc.2.1 h
    · exact hc.2.2 h
  · intro st h
    push_neg at h
    obtain ⟨toks, lb⟩ := st
    obtain ⟨h1, h2, h3⟩ := h
    constructor
    · intro hsemi
      rw [expectSemicolon, if_pos ⟨by simpa using h1, h2, h3⟩, pexpect, paccept, if_pos hsemi]
      cases toks with
      | nil => simp [cur, eofToken] at hsemi
      | cons t ts =>
        have hcur : t.type = token_type.semicolon := hsemi
        simp [getToken, tokTrue, hcur, Except.map]
    · intro hsemi
      rw [expectSemicolon, if_pos ⟨by simpa using h1, h2, h3⟩, pexpect, paccept, if_neg hsemi]
      simp [tokTrue, eofToken, Except.map]

/-- C7 witness: the theorem applied at two concrete states, one in the
optional-semicolon mode (end of input), one requiring the literal
semicolon. -/
theorem c7_semicolon_insertion_witness :
    expectSemicolon ⟨[], false⟩ = Except.ok (paccept ⟨[], false⟩ token_type.semicolon).2 ∧
    expectSemicolon ⟨[idTok "b"], false⟩ = Except.error "Expected token" := by
  constructor
  · exact c7_semicolon_insertion.1 ⟨[], false⟩ (Or.inr (Or.inr rfl))
  · exact (c7_semicolon_insertion.2.1 ⟨[idTok "b"], false⟩ (by decide)).2 (by decide)

/-- The scan of `calc_source_position` splits into independent CR and LF
counts and a column fold. -/
theorem cspFold_split :
    ∀ (l : List Char) (cr lf col : ℤ),
      cspFold l cr lf col = (cr + l.count '\r', lf + l.count '\n', colScan col l) := by
  intro l
  induction l with
  | nil => intro cr lf col; simp [cspFold, colScan]
  | cons c cs ih =>
    intro cr lf col
    rcases eq_or_ne c '\n' with h1 | h1
    · subst h1
      rw [show cspFold ('\n' :: cs) cr lf col = cspFold cs cr (lf + 1) 0 from
            by rw [cspFold, if_pos rfl],
          show colScan col ('\n' :: cs) = colScan 0 cs from
            by rw [colScan, if_pos (Or.inl rfl)], ih]
      simp [List.count_cons]
      omega
    · rcases eq_or_ne c '\r' with h2 | h2
      · subst h2
        rw [show cspFold ('\r' :: cs) cr lf col = cspFold cs (cr + 1) lf 0 from
              by rw [cspFold, if_neg h1, if_pos rfl],
            show colScan col ('\r' :: cs) = colScan 0 cs from
              by rw [colScan, if_pos (Or.inr rfl)], ih]
        simp [List.count_cons, h1]
        omega
      · have hor : ¬(c = '\n' ∨ c = '\r') := by tauto
        rcases eq_or_ne c '\t' with h3 | h3
        · subst h3
          rw [show cspFold ('\t' :: cs) cr lf col =
                  cspFold cs cr lf (col + (8 - Int.tmod col 8)) from
                by rw [cspFold, if_neg h1, if_neg h2, if_pos rfl],
              show colScan col ('\t' :: cs) = colScan (col + (8 - Int.tmod col 8)) cs from
                by rw [colScan, if_neg hor, if_pos rfl], ih]
          simp [List.count_cons, h1, h2]
        · rw [show cspFold (c :: cs) cr lf col = cspFold cs cr lf (col + 1) from
                by rw [cspFold, if_neg h1, if_neg h2, if_neg h3],
              show colScan col (c :: cs) = colScan (col + 1) cs from
                by rw [colScan, if_neg hor, if_neg h3], ih]
          simp [List.count_cons, h1, h2]

/-- C9 counterexample: over the text `"\n\r"` (an LF followed by a CR — two
separate terminators by the claim's counting) the code advances the line by
only one, because it counts CRs and LFs separately and takes the maximum. -/
theorem c9_counterexample :
    calc_source_position ['\n', '\r'] 0 2 (1, 1) ≠
      claim_source_position ['\n', '\r'] 0 2 (1, 1) := by
  decide

/-- C9 as amended: over any interval the line number advances by
`max(#CR, #LF)` — so a CRLF pair still counts once, but any interleaving of
CRs and LFs counts as the larger of the two totals rather than their sum —
while each CR or LF resets the column, a tab advances it to the next
multiple of 8, and every other code unit advances it by one (the column
fold `colScan`).  The trailing conjuncts evaluate CRLF, a lone CR and a tab
concretely. -/
theorem c9_position_counting :
    (∀ (t : List Char) (s e : ℕ) (line col : ℤ),
      calc_source_position t s e (line, col) =
        (line + max (((t.drop s).take (e - s)).count '\r' : ℤ)
            (((t.drop s).take (e - s)).count '\n' : ℤ),
         1 + colScan (col - 1) ((t.drop s).take (e - s)))) ∧
    calc_source_position ['\r', '\n'] 0 2 (1, 1) = (2, 1) ∧
    calc_source_position ['\r'] 0 1 (5, 3) = (6, 1) ∧
    calc_source_position ['\t'] 0 1 (1, 1) = (1, 9) ∧
    calc_source_position ['a', '\t', 'b'] 0 3 (1, 1) = (1, 10) := by
  refine ⟨?_, by decide, by decide, by decide, by decide⟩
  intro t s e line col
  rw [calc_source_position, cspFold_split]
  have hmax : max (line - 1 + (((t.drop s).take (e - s)).count '\r' : ℤ))
      (line - 1 + (((t.drop s).take (e - s)).count '\n' : ℤ)) =
      line - 1 + max (((t.drop s).take (e - s)).count '\r' : ℤ)
        (((t.drop s).take (e - s)).count '\n' : ℤ) := by
    rw [max_add_add_left]
  simp only [hmax, Prod.mk.injEq, and_true]
  ring

/-- C4: `to_uint32` sends NaN, the zeroes and the infinities to 0, and any
other double `n` to `(sign(n)·⌊|n|⌋) mod 2³²`, a value in `[0, 2³²)`; in
particular NaN ↦ 0, 4294967297.5 ↦ 1 and -1 ↦ 4294967295. -/
theorem c4_to_uint32 :
    (∀ q : ℚ, q ≠ 0 →
      to_uint32 (F64.fin q) =
        (((if q < 0 then (-1 : ℤ) else 1) * ⌊|q|⌋) % 4294967296).toNat ∧
      to_uint32 (F64.fin q) < 4294967296) ∧
    to_uint32 F64.nan = 0 ∧ to_uint32 (F64.inf false) = 0 ∧
    to_uint32 (F64.inf true) = 0 ∧ to_uint32 F64.negZero = 0 ∧
    to_uint32 (F64.fin 0) = 0 ∧
    to_uint32 (F64.fin (8589934595 / 2)) = 1 ∧
    to_uint32 (F64.fin (-1)) = 4294967295 := by
  refine ⟨?_, rfl, rfl, rfl, rfl, by norm_num [to_uint32],
    by with_unfolding_all rfl, by with_unfolding_all rfl⟩
  intro q hq
  have hcast : to_integer_inner q = (((if q < 0 then (-1 : ℤ) else 1) * ⌊|q|⌋ : ℤ) : ℚ) := by
    rw [to_integer_inner]
    split_ifs <;> push_cast <;> ring
  set i : ℤ := (if q < 0 then (-1 : ℤ) else 1) * ⌊|q|⌋ with hi
  have hfl : ⌊(i : ℚ) / ((4294967296 : ℕ) : ℚ)⌋ = i / (4294967296 : ℤ) :=
    Rat.floor_intCast_div_natCast i 4294967296
  have hmain : to_uint32 (F64.fin q) = (i % 4294967296).toNat := by
    show (if q = 0 then 0 else _) = _
    rw [if_neg hq]
    simp only [hcast]
    have h1 : ((4294967296 : ℕ) : ℚ) = (4294967296 : ℚ) := by norm_num
    rw [← h1, hfl]
    have h2 : (i : ℚ) - ((4294967296 : ℕ) : ℚ) * ((i / 4294967296 : ℤ) : ℚ) =
        ((i - 4294967296 * (i / 4294967296) : ℤ) : ℚ) := by
      push_cast
      ring
    rw [h2, Int.floor_intCast]
    congr 1
    rw [Int.emod_def]
  refine ⟨hmain, ?_⟩
  rw [hmain]
  have h3 : 0 ≤ i % 4294967296 := Int.emod_nonneg i (by norm_num)
  have h4 : i % 4294967296 < 4294967296 := Int.emod_lt_of_pos i (by norm_num)
  omega

/-- C4 witness: the universal part applied at `q = -1`. -/
theorem c4_to_uint32_witness :
    ((-1 : ℚ) ≠ 0) ∧
    to_uint32 (F64.fin (-1)) =
      (((if (-1 : ℚ) < 0 then (-1 : ℤ) else 1) * ⌊|(-1 : ℚ)|⌋) % 4294967296).toNat :=
  ⟨by norm_num, (c4_to_uint32.1 (-1) (by norm_num)).1⟩

/-- Arithmetic of the NaN-boxed word: range, tag field and payload field. -/
theorem get_value_box (tag p : ℕ) (htag1 : 1 ≤ tag) (htag8 : tag < 8) (hp : p < 2 ^ 48) :
    QNAN ≤ boxTagPayload tag p ∧ boxTagPayload tag p < QNAN + 2 ^ 51 ∧
    boxTagPayload tag p / 2 ^ 48 % 8 = tag ∧ boxTagPayload tag p % 2 ^ 48 = p ∧
    boxTagPayload tag p < 2 ^ 64 := by
  unfold boxTagPayload QNAN
  norm_num at hp ⊢
  omega

/-- Decoding a boxed non-number word recovers the tag dispatch. -/
theorem get_value_box_eq (tag p : ℕ) (htag1 : 1 ≤ tag) (htag8 : tag < 8) (hp : p < 2 ^ 48) :
    get_value (boxTagPayload tag p) =
      (if tag = 1 then gvalue.undefined
       else if tag = 2 then gvalue.null
       else if tag = 3 then gvalue.boolean (p = 1)
       else if tag = 4 then gvalue.string p
       else if tag = 5 then gvalue.object p
       else if tag = 6 then gvalue.reference (p % 2 ^ 24) (p / 2 ^ 24)
       else gvalue.native_function p) := by
  have hb := get_value_box tag p htag1 htag8 hp
  unfold get_value
  rw [if_pos ⟨hb.1, hb.2.1⟩]
  simp only [hb.2.2.1, hb.2.2.2.1]
  interval_cases tag <;> simp

/-- C1: unpacking the packed one-slot (64-bit) representation of any
well-formed scripting value yields a value equal to it under the §4.5
equality rules — identity for object, reference and native-function
handles, bit-exact for numbers with NaN equal to NaN — and the packed word
indeed fits one 64-bit slot. -/
theorem c1_pack_unpack :
    ∀ v : gvalue, WfG v →
      gvalueEq (get_value (to_representation v)) v = true ∧ to_representation v < 2 ^ 64 := by
  intro v hv
  cases v with
  | undefined =>
    have h := get_value_box_eq 1 0 (by norm_num) (by norm_num) (by norm_num)
    refine ⟨?_, (get_value_box 1 0 (by norm_num) (by norm_num) (by norm_num)).2.2.2.2⟩
    show gvalueEq (get_value (boxTagPayload 1 0)) gvalue.undefined = true
    rw [h]
    rfl
  | null =>
    have h := get_value_box_eq 2 0 (by norm_num) (by norm_num) (by norm_num)
    refine ⟨?_, (get_value_box 2 0 (by norm_num) (by norm_num) (by norm_num)).2.2.2.2⟩
    show gvalueEq (get_value (boxTagPayload 2 0)) gvalue.null = true
    rw [h]
    rfl
  | boolean b =>
    have hp : (if b then 1 else 0) < 2 ^ 48 := by cases b <;> norm_num
    have h := get_value_box_eq 3 (if b then 1 else 0) (by norm_num) (by norm_num) hp
    refine ⟨?_, (get_value_box 3 (if b then 1 else 0) (by norm_num) (by norm_num) hp).2.2.2.2⟩
    show gvalueEq (get_value (boxTagPayload 3 (if b then 1 else 0))) (gvalue.boolean b) = true
    rw [h]
    cases b <;> simp [gvalueEq]
  | string h =>
    have hb := get_value_box_eq 4 h (by norm_num) (by norm_num) hv
    refine ⟨?_, (get_value_box 4 h (by norm_num) (by norm_num) hv).2.2.2.2⟩
    show gvalueEq (get_value (boxTagPayload 4 h)) (gvalue.string h) = true
    rw [hb]
    simp [gvalueEq]
  | object h =>
    have hb := get_value_box_eq 5 h (by norm_num) (by norm_num) hv
    refine ⟨?_, (get_value_box 5 h (by norm_num) (by norm_num) hv).2.2.2.2⟩
    show gvalueEq (get_value (boxTagPayload 5 h)) (gvalue.object h) = true
    rw [hb]
    simp [gvalueEq]
  | native_function h =>
    have hb := get_value_box_eq 7 h (by norm_num) (by norm_num) hv
    refine ⟨?_, (get_value_box 7 h (by norm_num) (by norm_num) hv).2.2.2.2⟩
    show gvalueEq (get_value (boxTagPayload 7 h)) (gvalue.native_function h) = true
    rw [hb]
    simp [gvalueEq]
  | reference b nm =>
    obtain ⟨hb24, hn24⟩ := hv
    have hp : b + nm * 2 ^ 24 < 2 ^ 48 := by norm_num at hb24 hn24 ⊢; omega
    have hmod : (b + nm * 2 ^ 24) % 2 ^ 24 = b := by
      norm_num at hb24 ⊢
      omega
    have hdiv : (b + nm * 2 ^ 24) / 2 ^ 24 = nm := by
      norm_num at hb24 ⊢
      omega
    have hb6 := get_value_box_eq 6 (b + nm * 2 ^ 24) (by norm_num) (by norm_num) hp
    refine ⟨?_, (get_value_box 6 (b + nm * 2 ^ 24) (by norm_num) (by norm_num) hp).2.2.2.2⟩
    show gvalueEq (get_value (boxTagPayload 6 (b + nm * 2 ^ 24))) (gvalue.reference b nm) = true
    rw [hb6]
    simp [gvalueEq, hmod, hdiv]
    omega
  | number w =>
    by_cases hn : nanBits w = true
    · have hrep : to_representation (gvalue.number w) = QNAN := by
        simp [to_representation, hn]
      rw [hrep]
      have hget : get_value QNAN = gvalue.number QNAN := by decide
      rw [hget]
      refine ⟨?_, by norm_num [QNAN]⟩
      simp [gvalueEq, hn, (by decide : nanBits QNAN = true)]
    · have hrep : to_representation (gvalue.number w) = w := by
        simp [to_representation, hn]
      rw [hrep]
      have hcond : ¬(QNAN ≤ w ∧ w < QNAN + 2 ^ 51) := by
        intro hc
        apply hn
        have h1 : w / 2 ^ 52 % 2 ^ 11 = 2047 := by
          unfold QNAN at hc
          norm_num at hc ⊢
          omega
        have h2 : w % 2 ^ 52 ≠ 0 := by
          unfold QNAN at hc
          norm_num at hc ⊢
          omega
        simp [nanBits]
        omega
      have hget : get_value w = gvalue.number w := by
        unfold get_value
        rw [if_neg hcond]
      rw [hget]
      exact ⟨by simp [gvalueEq], hv⟩

/-- C1 witness: the round trip applied at a concrete reference value. -/
theorem c1_pack_unpack_witness :
    WfG (gvalue.reference 3 5) ∧
    gvalueEq (get_value (to_representation (gvalue.reference 3 5))) (gvalue.reference 3 5) = true :=
  ⟨by norm_num [WfG], (c1_pack_unpack (gvalue.reference 3 5) (by norm_num [WfG])).1⟩

/-- C3: `to_string(double)` follows the §4.5 case analysis.  NaN gives
"NaN", both zeroes give "0", the infinities give "Infinity" (the negative
one through the sign rule), negatives recurse on the absolute value with
"-" prepended; for finite positive numbers with `k` digits `s` and point
position `n` the chosen formatting branch is: `k ≤ n ≤ 21` appends `n-k`
zeros, `0 < n ≤ 21` inserts a point after `n` digits, `-6 < n ≤ 0` emits
"0." then `-n` zeros then `s`, `k = 1` emits `s`, "e", the sign of `n-1`
and `|n-1|`, and otherwise `s[0]`, ".", `s[1..]`, "e", sign and `|n-1|`.
Concretely `ToString(0.1) = "0.1"` and `ToString(1e21) = "1e+21"`. -/
theorem c3_to_string_cases :
    to_string F64.nan = some "NaN" ∧
    to_string F64.negZero = some "0" ∧
    to_string (F64.fin 0) = some "0" ∧
    to_string (F64.inf false) = some "Infinity" ∧
    to_string (F64.inf true) = some "-Infinity" ∧
    (∀ q : ℚ, 0 < q →
      to_stringChars (F64.fin (-q)) = (to_stringPos q).map (fun s => '-' :: s)) ∧
    (∀ q : ℚ, 0 < q → ∀ k, findK q = some k →
      to_stringChars (F64.fin q) = some (do_format_double q k)) ∧
    (∀ (s : List ℕ) (n : ℤ), (s.length : ℤ) ≤ n → n ≤ 21 →
      fmtDigits s n = (s.map digitChar) ++ List.replicate (n - s.length).toNat '0') ∧
    (∀ (s : List ℕ) (n : ℤ), ¬((s.length : ℤ) ≤ n ∧ n ≤ 21) → 0 < n → n ≤ 21 →
      fmtDigits s n =
        ((s.take n.toNat).map digitChar) ++ '.' :: ((s.drop n.toNat).map digitChar)) ∧
    (∀ (s : List ℕ) (n : ℤ), 1 ≤ s.length → -6 < n → n ≤ 0 →
      fmtDigits s n = '0' :: '.' :: (List.replicate (-n).toNat '0' ++ s.map digitChar)) ∧
    (∀ (s : List ℕ) (n : ℤ), s.length = 1 → (21 < n ∨ n ≤ -6) →
      fmtDigits s n = (s.map digitChar) ++
        'e' :: (if 0 ≤ n - 1 then '+' else '-') :: (natToDigits (n - 1).natAbs).map digitChar) ∧
    (∀ (d : ℕ) (rest : List ℕ) (n : ℤ), rest ≠ [] → (21 < n ∨ n ≤ -6) →
      fmtDigits (d :: rest) n = digitChar d :: '.' :: (rest.map digitChar ++
        'e' :: (if 0 ≤ n - 1 then '+' else '-') :: (natToDigits (n - 1).natAbs).map digitChar)) ∧
    to_string (F64.fin double01) = some "0.1" ∧
    to_string (F64.fin (10 ^ 21 : ℚ)) = some "1e+21" := by
  refine ⟨rfl, rfl, by norm_num [to_string, to_stringChars], rfl, rfl,
    ?_, ?_, ?_, ?_, ?_, ?_, ?_, ?_, ?_⟩
  · intro q hq
    rw [to_stringChars]
    rw [if_neg (by intro h; rw [neg_eq_zero] at h; exact absurd h (ne_of_gt hq)),
      if_pos (neg_neg_iff_pos.mpr hq), neg_neg]
  · intro q hq k hk
    rw [to_stringChars, if_neg (ne_of_gt hq), if_neg (not_lt.mpr (le_of_lt hq)),
      to_stringPos, hk]
    rfl
  · intro s n h1 h2
    simp only [fmtDigits]
    rw [if_pos ⟨h1, h2⟩]
  · intro s n h1 h2 h3
    simp only [fmtDigits]
    rw [if_neg h1, if_pos ⟨h2, h3⟩]
  · intro s n hs h1 h2
    simp only [fmtDigits]
    rw [if_neg (by omega), if_neg (by omega), if_pos ⟨h1, h2⟩]
  · intro s n hs h1
    simp only [fmtDigits]
    rw [if_neg (by omega), if_neg (by omega), if_neg (by omega), if_pos (by omega)]
  · intro d rest n hrest h1
    have hlen : (1 : ℤ) ≤ ((d :: rest).length : ℤ) := by simp
    have hlen2 : ((d :: rest).length : ℤ) ≠ 1 := by
      simp only [List.length_cons]
      have : rest.length ≠ 0 := fun h => hrest (List.eq_nil_of_length_eq_zero h)
      omega
    simp only [fmtDigits]
    rw [if_neg (by omega), if_neg (by omega), if_neg (by omega), if_neg (by omega)]
  · have hrd : renderDigits double01 1 = (1, 0) := by with_unfolding_all rfl
    have hrv : renderValue double01 1 = 1 / 10 := by
      rw [renderValue, hrd]
      norm_num
    have hr2 : roundF64pos (1 / 10) = double01 := by with_unfolding_all rfl
    have hRT : roundTrips double01 1 = true := by
      rw [roundTrips, hrv, hr2]
      simp
    have hk : findK double01 = some 1 := by
      show findKaux double01 (16 + 1) 1 = some 1
      rw [findKaux, if_pos hRT]
    have hfmt : do_format_double double01 1 = "0.1".data := by
      rw [do_format_double, hrd]
      decide
    rw [to_string, to_stringChars]
    rw [if_neg (by norm_num [double01]), if_neg (by norm_num [double01]),
      to_stringPos, hk]
    simp only [Option.map_some', hfmt]
  · have hrd : renderDigits (10 ^ 21 : ℚ) 1 = (1, 22) := by with_unfolding_all rfl
    have hrv : renderValue (10 ^ 21 : ℚ) 1 = 10 ^ 21 := by
      rw [renderValue, hrd]
      norm_num
    have hr2 : roundF64pos (10 ^ 21 : ℚ) = 10 ^ 21 := by with_unfolding_all rfl
    have hRT : roundTrips (10 ^ 21 : ℚ) 1 = true := by
      rw [roundTrips, hrv, hr2]
      simp
    have hk : findK (10 ^ 21 : ℚ) = some 1 := by
      show findKaux (10 ^ 21 : ℚ) (16 + 1) 1 = some 1
      rw [findKaux, if_pos hRT]
    have hfmt : do_format_double (10 ^ 21 : ℚ) 1 = "1e+21".data := by
      rw [do_format_double, hrd]
      decide
    rw [to_string, to_stringChars]
    rw [if_neg (by norm_num), if_neg (by norm_num), to_stringPos, hk]
    simp only [Option.map_some', hfmt]

/-- C3 witness: the sign rule applied at 1 and the zero-appending branch at
the digit list `[1]` with point position 1. -/
theorem c3_to_string_cases_witness :
    ((0 : ℚ) < 1 ∧
      to_stringChars (F64.fin (-1)) = (to_stringPos 1).map (fun s => '-' :: s)) ∧
    (((([1] : List ℕ).length : ℤ) ≤ 1 ∧ (1 : ℤ) ≤ 21) ∧
      fmtDigits [1] 1 = (([1] : List ℕ).map digitChar) ++
        List.replicate ((1 - ([1] : List ℕ).length : ℤ)).toNat '0') :=
  ⟨⟨by norm_num, c3_to_string_cases.2.2.2.2.2.1 1 (by norm_num)⟩,
   ⟨⟨by norm_num, by norm_num⟩,
    c3_to_string_cases.2.2.2.2.2.2.2.1 [1] 1 (by norm_num) (by norm_num)⟩⟩

theorem nlogf_spec (b : ℕ) (hb : 2 ≤ b) :
    ∀ (f n : ℕ), 1 ≤ n → n < b ^ f →
      b ^ (nlogf b f n) ≤ n ∧ n < b ^ (nlogf b f n + 1) := by
  intro f
  induction f with
  | zero =>
    intro n h1 h2
    simp at h2
    omega
  | succ f ih =>
    intro n h1 h2
    rw [nlogf]
    by_cases hbn : b ≤ n
    · rw [if_pos hbn]
      have hb0 : 0 < b := by omega
      have hnb1 : 1 ≤ n / b := (Nat.one_le_div_iff hb0).mpr hbn
      have hnbf : n / b < b ^ f := by
        rw [Nat.div_lt_iff_lt_mul hb0]
        calc n < b ^ (f + 1) := h2
          _ = b ^ f * b := pow_succ b f
      obtain ⟨ha, ha2⟩ := ih (n / b) hnb1 hnbf
      constructor
      · calc b ^ (nlogf b f (n / b) + 1) = b ^ nlogf b f (n / b) * b := pow_succ _ _
          _ ≤ (n / b) * b := Nat.mul_le_mul_right b ha
          _ ≤ n := Nat.div_mul_le_self n b
      · have hlt : n < (n / b + 1) * b := by
          have := Nat.div_add_mod n b
          have := Nat.mod_lt n hb0
          nlinarith
        calc n < (n / b + 1) * b := hlt
          _ ≤ b ^ (nlogf b f (n / b) + 1) * b := Nat.mul_le_mul_right b (by omega)
          _ = b ^ (nlogf b f (n / b) + 1 + 1) := (pow_succ b _).symm
    · rw [if_neg hbn]
      constructor
      · simpa using h1
      · simpa using by omega

theorem natFlog_spec (b n : ℕ) (hb : 2 ≤ b) (h1 : 1 ≤ n) (h2 : n < b ^ 2500) :
    b ^ natFlog b n ≤ n ∧ n < b ^ (natFlog b n + 1) :=
  nlogf_spec b hb 2500 n h1 h2

theorem flogQ_eq (b : ℕ) (q : ℚ) :
    flogQ b q =
      if (b : ℚ) ^ ((natFlog b q.num.toNat : ℤ) - natFlog b q.den) ≤ q
      then (natFlog b q.num.toNat : ℤ) - natFlog b q.den
      else (natFlog b q.num.toNat : ℤ) - natFlog b q.den - 1 := rfl

theorem flogQ_spec (b : ℕ) (q : ℚ) (hb : 2 ≤ b) (hq : 0 < q)
    (hnum : q.num.toNat < b ^ 2500) (hden : q.den < b ^ 2500) :
    (b : ℚ) ^ flogQ b q ≤ q ∧ q < (b : ℚ) ^ (flogQ b q + 1) := by
  have hbQ : (1 : ℚ) < (b : ℚ) := by exact_mod_cast (by omega : 1 < b)
  have hbQ0 : (0 : ℚ) < (b : ℚ) := lt_trans one_pos hbQ
  have ha1 : 1 ≤ q.num.toNat := by
    have := Rat.num_pos.mpr hq
    omega
  have hd1 : 1 ≤ q.den := q.den_pos
  obtain ⟨hA1, hA2⟩ := natFlog_spec b q.num.toNat hb ha1 hnum
  obtain ⟨hD1, hD2⟩ := natFlog_spec b q.den hb hd1 hden
  have hqad : q = (q.num.toNat : ℚ) / (q.den : ℚ) := by
    have hnn : 0 ≤ q.num := le_of_lt (Rat.num_pos.mpr hq)
    have hq2 : ((q.num.toNat : ℕ) : ℚ) = (q.num : ℚ) := by
      have h3 : ((q.num.toNat : ℕ) : ℤ) = q.num := Int.toNat_of_nonneg hnn
      exact_mod_cast h3
    rw [hq2]
    exact (Rat.num_div_den q).symm
  have hd0 : (0 : ℚ) < (q.den : ℚ) := by exact_mod_cast hd1
  have hA1Q : (b : ℚ) ^ ((natFlog b q.num.toNat : ℕ) : ℤ) ≤ (q.num.toNat : ℚ) := by
    rw [zpow_natCast]
    exact_mod_cast hA1
  have hA2Q : (q.num.toNat : ℚ) < (b : ℚ) ^ (((natFlog b q.num.toNat : ℕ) : ℤ) + 1) := by
    rw [show (((natFlog b q.num.toNat : ℕ) : ℤ) + 1) = ((natFlog b q.num.toNat + 1 : ℕ) : ℤ)
      by push_cast; ring, zpow_natCast]
    exact_mod_cast hA2
  have hD1Q : (b : ℚ) ^ ((natFlog b q.den : ℕ) : ℤ) ≤ (q.den : ℚ) := by
    rw [zpow_natCast]
    exact_mod_cast hD1
  have hD2Q : (q.den : ℚ) < (b : ℚ) ^ (((natFlog b q.den : ℕ) : ℤ) + 1) := by
    rw [show (((natFlog b q.den : ℕ) : ℤ) + 1) = ((natFlog b q.den + 1 : ℕ) : ℤ)
      by push_cast; ring, zpow_natCast]
    exact_mod_cast hD2
  rw [flogQ_eq]
  set c : ℤ := (natFlog b q.num.toNat : ℤ) - natFlog b q.den with hc
  have hupper : q < (b : ℚ) ^ (c + 1) := by
    rw [hqad, div_lt_iff₀ hd0]
    calc (q.num.toNat : ℚ) < (b : ℚ) ^ (((natFlog b q.num.toNat : ℕ) : ℤ) + 1) := hA2Q
      _ = (b : ℚ) ^ (c + 1) * (b : ℚ) ^ ((natFlog b q.den : ℕ) : ℤ) := by
          rw [← zpow_add₀ (ne_of_gt hbQ0)]
          congr 1
          omega
      _ ≤ (b : ℚ) ^ (c + 1) * (q.den : ℚ) := by
          apply mul_le_mul_of_nonneg_left hD1Q (le_of_lt (zpow_pos hbQ0 _))
  have hlower : (b : ℚ) ^ (c - 1) < q := by
    rw [hqad, lt_div_iff₀ hd0]
    calc (b : ℚ) ^ (c - 1) * (q.den : ℚ)
        < (b : ℚ) ^ (c - 1) * (b : ℚ) ^ (((natFlog b q.den : ℕ) : ℤ) + 1) := by
          apply mul_lt_mul_of_pos_left hD2Q (zpow_pos hbQ0 _)
      _ = (b : ℚ) ^ ((natFlog b q.num.toNat : ℕ) : ℤ) := by
          rw [← zpow_add₀ (ne_of_gt hbQ0)]
          congr 1
          omega
      _ ≤ (q.num.toNat : ℚ) := hA1Q
  split_ifs with h
  · exact ⟨h, hupper⟩
  · constructor
    · linarith [hlower]
    · have : (c - 1) + 1 = c := by ring
      rw [this]
      linarith [h]

theorem flogQ_unique (b : ℕ) (q : ℚ) (t : ℤ) (hb : 2 ≤ b) (hq : 0 < q)
    (hnum : q.num.toNat < b ^ 2500) (hden : q.den < b ^ 2500)
    (h1 : (b : ℚ) ^ t ≤ q) (h2 : q < (b : ℚ) ^ (t + 1)) : flogQ b q = t := by
  have hbQ : (1 : ℚ) < (b : ℚ) := by exact_mod_cast (by omega : 1 < b)
  obtain ⟨g1, g2⟩ := flogQ_spec b q hb hq hnum hden
  by_contra hne
  rcases lt_or_gt_of_ne hne with hlt | hgt
  · have h3 : (b : ℚ) ^ (flogQ b q + 1) ≤ (b : ℚ) ^ t :=
      (zpow_le_zpow_iff_right₀ hbQ).mpr (by omega)
    linarith
  · have h3 : (b : ℚ) ^ (t + 1) ≤ (b : ℚ) ^ (flogQ b q) :=
      (zpow_le_zpow_iff_right₀ hbQ).mpr (by omega)
    linarith

theorem rhe_eq (x : ℚ) :
    rhe x = if x - ⌊x⌋ < 1 / 2 then ⌊x⌋
      else if 1 / 2 < x - ⌊x⌋ then ⌊x⌋ + 1
      else if ⌊x⌋ % 2 = 0 then ⌊x⌋ else ⌊x⌋ + 1 := rfl

theorem rhe_abs_le (x : ℚ) : |(rhe x : ℚ) - x| ≤ 1 / 2 := by
  have h1 : (⌊x⌋ : ℚ) ≤ x := Int.floor_le x
  have h2 : x < ⌊x⌋ + 1 := Int.lt_floor_add_one x
  rw [rhe_eq]
  split_ifs with ha hb hc <;> rw [abs_le] <;> constructor <;> push_cast <;> push_neg at * <;>
    linarith

theorem rhe_int_bounds (x : ℚ) : ⌊x⌋ ≤ rhe x ∧ rhe x ≤ ⌊x⌋ + 1 := by
  rw [rhe_eq]
  split_ifs <;> omega

theorem rhe_eq_of_close (m : ℤ) (x : ℚ) (h : |x - m| < 1 / 2) : rhe x = m := by
  rw [abs_lt] at h
  obtain ⟨hl, hr⟩ := h
  have h1 : (⌊x⌋ : ℚ) ≤ x := Int.floor_le x
  have h2 : x < ⌊x⌋ + 1 := Int.lt_floor_add_one x
  have hfl : ⌊x⌋ = m ∨ ⌊x⌋ = m - 1 := by
    have hle : ⌊x⌋ ≤ m := by
      by_contra hc
      push_neg at hc
      have : (m : ℚ) + 1 ≤ (⌊x⌋ : ℚ) := by exact_mod_cast hc
      linarith
    have hge : m - 1 ≤ ⌊x⌋ := by
      by_contra hc
      push_neg at hc
      have : (⌊x⌋ : ℚ) + 1 ≤ ((m : ℚ) - 1) := by
        have : ⌊x⌋ + 1 ≤ m - 1 := by omega
        exact_mod_cast this
      linarith
    omega
  rw [rhe_eq]
  rcases hfl with hf | hf
  · rw [hf, if_pos]
    exact hr
  · rw [hf, if_neg, if_pos] <;> push_cast <;> (try push_neg) <;> first | omega | linarith

theorem repr_pos_bounds (q : ℚ) (hq : 0 < q) (h : Repr64 q) :
    q.num.toNat < 2 ^ 2500 ∧ q.den < 2 ^ 2500 ∧
    (2 : ℚ) ^ (-1074 : ℤ) ≤ q ∧ q < (2 : ℚ) ^ (1024 : ℤ) := by
  obtain ⟨M, e, hM, he1, he2, hqe⟩ := h
  have h2Q : (0 : ℚ) < 2 := two_pos
  have habsM : M < 2 ^ 53 ∧ -(2 ^ 53) < M := by
    rw [abs_lt] at hM
    omega
  have hM1 : 1 ≤ M := by
    by_contra hc
    push_neg at hc
    have hM0 : M ≤ 0 := by omega
    have hMQ : (M : ℚ) ≤ 0 := by exact_mod_cast hM0
    have hpow : (0 : ℚ) < (2 : ℚ) ^ e := zpow_pos h2Q e
    nlinarith [hqe ▸ hq]
  have hqlow : (2 : ℚ) ^ (-1074 : ℤ) ≤ q := by
    rw [hqe]
    calc (2 : ℚ) ^ (-1074 : ℤ) ≤ (2 : ℚ) ^ e := (zpow_le_zpow_iff_right₀ one_lt_two).mpr he1
      _ = 1 * (2 : ℚ) ^ e := (one_mul _).symm
      _ ≤ (M : ℚ) * (2 : ℚ) ^ e := by
          apply mul_le_mul_of_nonneg_right _ (le_of_lt (zpow_pos h2Q e))
          exact_mod_cast hM1
  have hqhigh : q < (2 : ℚ) ^ (1024 : ℤ) := by
    rw [hqe]
    have hMQ : (M : ℚ) < (2 : ℚ) ^ (53 : ℤ) := by
      have : ((M : ℤ) : ℚ) < (((2 : ℤ) ^ 53 : ℤ) : ℚ) := by exact_mod_cast habsM.1
      calc (M : ℚ) < (((2 : ℤ) ^ 53 : ℤ) : ℚ) := this
        _ = (2 : ℚ) ^ (53 : ℕ) := by push_cast; ring
        _ = (2 : ℚ) ^ (53 : ℤ) := (zpow_natCast 2 53).symm
    calc (M : ℚ) * (2 : ℚ) ^ e < (2 : ℚ) ^ (53 : ℤ) * (2 : ℚ) ^ e := by
          apply mul_lt_mul_of_pos_right hMQ (zpow_pos h2Q e)
      _ = (2 : ℚ) ^ (53 + e) := (zpow_add₀ two_ne_zero 53 e).symm
      _ ≤ (2 : ℚ) ^ (1024 : ℤ) := (zpow_le_zpow_iff_right₀ one_lt_two).mpr (by omega)
  have hden1074 : q.den ≤ 2 ^ 1074 := by
    have ht : (2 : ℚ) ^ e = (2 : ℚ) ^ ((e + 1074).toNat : ℤ) / (2 : ℚ) ^ (1074 : ℤ) := by
      rw [← zpow_sub₀ (two_ne_zero (α := ℚ))]
      congr 1
      omega
    have hqd : q = Rat.divInt (M * 2 ^ (e + 1074).toNat) (2 ^ 1074) := by
      rw [Rat.divInt_eq_div, hqe, ht]
      push_cast
      rw [zpow_natCast]
      ring
    have hdvd : (q.den : ℤ) ∣ 2 ^ 1074 := by
      rw [hqd]
      exact Rat.den_dvd (M * 2 ^ (e + 1074).toNat) (2 ^ 1074)
    have hpos : (0 : ℤ) < 2 ^ 1074 := by positivity
    have := Int.le_of_dvd hpos hdvd
    exact_mod_cast this
  have hdenb : q.den < 2 ^ 2500 := by
    calc q.den ≤ 2 ^ 1074 := hden1074
      _ < 2 ^ 2500 := Nat.pow_lt_pow_right (by norm_num) (by norm_num)
  refine ⟨?_, hdenb, hqlow, hqhigh⟩
  have hdne : (q.den : ℚ) ≠ 0 := by
    exact_mod_cast q.den_pos.ne'
  have hnum_eq : (q.num : ℚ) = q * q.den := by
    calc (q.num : ℚ) = (q.num : ℚ) / q.den * q.den := by rw [div_mul_cancel₀ _ hdne]
      _ = q * q.den := by rw [Rat.num_div_den]
  have hdenQ : (q.den : ℚ) ≤ (2 : ℚ) ^ (1074 : ℤ) := by
    calc (q.den : ℚ) ≤ ((2 ^ 1074 : ℕ) : ℚ) := by exact_mod_cast hden1074
      _ = (2 : ℚ) ^ (1074 : ℕ) := by push_cast; ring
      _ = (2 : ℚ) ^ (1074 : ℤ) := (zpow_natCast 2 1074).symm
  have hnumQ : (q.num : ℚ) < (2 : ℚ) ^ (2098 : ℤ) := by
    have hd0 : (0 : ℚ) < (q.den : ℚ) := by exact_mod_cast q.den_pos
    calc (q.num : ℚ) = q * q.den := hnum_eq
      _ < (2 : ℚ) ^ (1024 : ℤ) * (q.den : ℚ) := mul_lt_mul_of_pos_right hqhigh hd0
      _ ≤ (2 : ℚ) ^ (1024 : ℤ) * (2 : ℚ) ^ (1074 : ℤ) := by
          apply mul_le_mul_of_nonneg_left hdenQ
          positivity
      _ = (2 : ℚ) ^ (2098 : ℤ) := by
          rw [← zpow_add₀ (two_ne_zero (α := ℚ))]
          norm_num
  have hnumZ : q.num < 2 ^ 2098 := by
    have h2098 : (2 : ℚ) ^ (2098 : ℤ) = (((2 : ℤ) ^ 2098 : ℤ) : ℚ) := by
      rw [show (2098 : ℤ) = ((2098 : ℕ) : ℤ) from rfl, zpow_natCast]
      push_cast
      ring
    rw [h2098] at hnumQ
    exact_mod_cast hnumQ
  have : q.num.toNat < 2 ^ 2098 := by omega
  calc q.num.toNat < 2 ^ 2098 := this
    _ < 2 ^ 2500 := Nat.pow_lt_pow_right (by norm_num) (by norm_num)

theorem repr_canonical (q : ℚ) (hq : 0 < q) (h : Repr64 q) :
    ∃ M : ℤ, 1 ≤ M ∧ M < 2 ^ 53 ∧
      q = (M : ℚ) * (2 : ℚ) ^ (max (-1074) (flogQ 2 q - 52)) := by
  obtain ⟨hnum, hden, hlow, hhigh⟩ := repr_pos_bounds q hq h
  obtain ⟨M0, e0, hM0, he01, he02, hqe⟩ := h
  obtain ⟨hL1, hL2⟩ := flogQ_spec 2 q (le_refl 2) hq hnum hden
  push_cast at hL1 hL2
  set L := flogQ 2 q with hLdef
  set e := max (-1074) (L - 52) with hedef
  have hM053 : M0 < 2 ^ 53 := by
    rw [abs_lt] at hM0
    omega
  have hM01 : 1 ≤ M0 := by
    by_contra hc
    push_neg at hc
    have hM0' : M0 ≤ 0 := by omega
    have hMQ : (M0 : ℚ) ≤ 0 := by exact_mod_cast hM0'
    have hpow : (0 : ℚ) < (2 : ℚ) ^ e0 := zpow_pos two_pos e0
    have hq2 : (0 : ℚ) < (M0 : ℚ) * (2 : ℚ) ^ e0 := by
      rw [← hqe]
      exact hq
    have h3 := mul_le_mul_of_nonneg_right hMQ (le_of_lt hpow)
    rw [zero_mul] at h3
    linarith
  have hM053Q : (M0 : ℚ) < (2 : ℚ) ^ (53 : ℤ) := by
    have h1 : ((M0 : ℤ) : ℚ) < (((2 : ℤ) ^ 53 : ℤ) : ℚ) := by exact_mod_cast hM053
    calc (M0 : ℚ) < (((2 : ℤ) ^ 53 : ℤ) : ℚ) := h1
      _ = (2 : ℚ) ^ (53 : ℕ) := by push_cast; ring
      _ = (2 : ℚ) ^ (53 : ℤ) := (zpow_natCast 2 53).symm
  have he0e : e ≤ e0 := by
    rw [hedef]
    rcases max_choice (-1074 : ℤ) (L - 52) with hm | hm
    · rw [hm]
      exact he01
    · rw [hm]
      by_contra hc
      push_neg at hc
      have hq53 : q < (2 : ℚ) ^ (e0 + 53) := by
        rw [hqe]
        calc (M0 : ℚ) * (2 : ℚ) ^ e0 < (2 : ℚ) ^ (53 : ℤ) * (2 : ℚ) ^ e0 :=
            mul_lt_mul_of_pos_right hM053Q (zpow_pos two_pos e0)
          _ = (2 : ℚ) ^ (e0 + 53) := by
              rw [← zpow_add₀ (two_ne_zero (α := ℚ))]
              ring_nf
      have hle : (2 : ℚ) ^ (e0 + 53) ≤ (2 : ℚ) ^ L :=
        (zpow_le_zpow_iff_right₀ one_lt_two).mpr (by omega)
      linarith
  have hqM : q = ((M0 * 2 ^ (e0 - e).toNat : ℤ) : ℚ) * (2 : ℚ) ^ e := by
    rw [hqe]
    push_cast
    rw [show ((2 : ℚ) ^ ((e0 - e).toNat : ℕ)) = (2 : ℚ) ^ (((e0 - e).toNat : ℕ) : ℤ) from
      (zpow_natCast _ _).symm]
    rw [mul_assoc, ← zpow_add₀ (two_ne_zero (α := ℚ))]
    congr 2
    have he' : e ≤ e0 := he0e
    omega
  have hMlt : M0 * 2 ^ (e0 - e).toNat < 2 ^ 53 := by
    have he53 : L + 1 ≤ e + 53 := by
      rw [hedef]
      omega
    have hqlt : q < (2 : ℚ) ^ (e + 53) :=
      lt_of_lt_of_le hL2 ((zpow_le_zpow_iff_right₀ one_lt_two).mpr he53)
    rw [hqM] at hqlt
    rw [show (2 : ℚ) ^ (e + 53) = (2 : ℚ) ^ (53 : ℤ) * (2 : ℚ) ^ e from by
      rw [← zpow_add₀ (two_ne_zero (α := ℚ))]; ring_nf] at hqlt
    have hMQlt : ((M0 * 2 ^ (e0 - e).toNat : ℤ) : ℚ) < (2 : ℚ) ^ (53 : ℤ) :=
      lt_of_mul_lt_mul_right hqlt (le_of_lt (zpow_pos two_pos e))
    have h53 : (2 : ℚ) ^ (53 : ℤ) = (((2 : ℤ) ^ 53 : ℤ) : ℚ) := by
      rw [show (53 : ℤ) = ((53 : ℕ) : ℤ) from rfl, zpow_natCast]
      push_cast
      ring
    rw [h53] at hMQlt
    exact_mod_cast hMQlt
  have hMge : 1 ≤ M0 * 2 ^ (e0 - e).toNat := by
    have h2t : (1 : ℤ) ≤ 2 ^ (e0 - e).toNat := by
      have := pow_pos (show (0 : ℤ) < 2 by norm_num) (e0 - e).toNat
      omega
    have h4 := mul_le_mul hM01 h2t zero_le_one (by omega : (0 : ℤ) ≤ M0)
    simpa using h4
  exact ⟨M0 * 2 ^ (e0 - e).toNat, hMge, hMlt, hqM⟩

theorem rhe_int (m : ℤ) : rhe (m : ℚ) = m := by
  rw [rhe_eq, Int.floor_intCast]
  rw [if_pos]
  rw [sub_self]
  norm_num

theorem roundF64pos_eq (r : ℚ) :
    roundF64pos r =
      (rhe (r / 2 ^ (max (-1074) (flogQ 2 r - 52))) : ℚ) *
        2 ^ (max (-1074) (flogQ 2 r - 52)) := rfl

theorem roundF64pos_fix (q : ℚ) (hq : 0 < q) (h : Repr64 q) : roundF64pos q = q := by
  obtain ⟨M, hM1, hM2, hqM⟩ := repr_canonical q hq h
  rw [roundF64pos_eq]
  have hpow : ((2 : ℚ) ^ (max (-1074) (flogQ 2 q - 52)) : ℚ) ≠ 0 :=
    zpow_ne_zero _ (two_ne_zero)
  have hdiv : q / 2 ^ (max (-1074) (flogQ 2 q - 52)) = (M : ℚ) := by
    nth_rewrite 1 [hqM]
    exact mul_div_cancel_right₀ _ hpow
  rw [hdiv, rhe_int, ← hqM]

theorem mulPow10_num_den (D t : ℤ) (hD0 : 0 < D) (hD : D ≤ 10 ^ 17)
    (ht1 : -341 ≤ t) (ht2 : t ≤ 309) :
    ((D : ℚ) * 10 ^ t).num.toNat < 2 ^ 2500 ∧ ((D : ℚ) * 10 ^ t).den < 2 ^ 2500 := by
  rcases le_or_lt 0 t with ht | ht
  · have heq : (D : ℚ) * 10 ^ t = ((D * 10 ^ t.toNat : ℤ) : ℚ) := by
      push_cast
      rw [← zpow_natCast (10 : ℚ) t.toNat, Int.toNat_of_nonneg ht]
    rw [heq, Rat.num_intCast, Rat.den_intCast]
    refine ⟨?_, by norm_num⟩
    have h1 : D * 10 ^ t.toNat ≤ 10 ^ 17 * 10 ^ 309 := by
      have h10 : (10 : ℤ) ^ t.toNat ≤ 10 ^ 309 := by
        apply pow_le_pow_right₀ (by norm_num)
        omega
      have h2 : 0 < (10 : ℤ) ^ t.toNat := by positivity
      calc D * 10 ^ t.toNat ≤ 10 ^ 17 * 10 ^ t.toNat :=
            mul_le_mul_of_nonneg_right hD (le_of_lt h2)
        _ ≤ 10 ^ 17 * 10 ^ 309 := by
            exact mul_le_mul_of_nonneg_left h10 (by norm_num)
    have h3 : (10 : ℤ) ^ 17 * 10 ^ 309 < 2 ^ 2500 := by norm_num
    have h4 : D * 10 ^ t.toNat < 2 ^ 2500 := lt_of_le_of_lt h1 h3
    generalize D * 10 ^ t.toNat = a at h4 ⊢
    omega
  · have heq : (D : ℚ) * 10 ^ t = Rat.divInt D (10 ^ (-t).toNat) := by
      rw [Rat.divInt_eq_div]
      rw [eq_div_iff (by positivity : (((10 : ℤ) ^ (-t).toNat : ℤ) : ℚ) ≠ 0)]
      push_cast
      rw [← zpow_natCast (10 : ℚ) (-t).toNat, mul_assoc,
        ← zpow_add₀ (by norm_num : (10 : ℚ) ≠ 0)]
      rw [show t + ((-t).toNat : ℤ) = 0 from by omega]
      norm_num
    have hb0 : ((10 : ℤ) ^ (-t).toNat : ℤ) ≠ 0 := by positivity
    have hnum : ((D : ℚ) * 10 ^ t).num ∣ D := heq ▸ Rat.num_dvd D hb0
    have hden : (((D : ℚ) * 10 ^ t).den : ℤ) ∣ 10 ^ (-t).toNat :=
      heq ▸ Rat.den_dvd D (10 ^ (-t).toNat)
    constructor
    · have h1 : ((D : ℚ) * 10 ^ t).num ≤ D :=
        Int.le_of_dvd hD0 hnum
      have h2 : (10 : ℤ) ^ 17 < 2 ^ 2500 := by norm_num
      have h4 : ((D : ℚ) * 10 ^ t).num < 2 ^ 2500 :=
        lt_of_le_of_lt h1 (lt_of_le_of_lt hD h2)
      omega
    · have hdpos : 0 < (((D : ℚ) * 10 ^ t).den : ℤ) := by
        exact_mod_cast ((D : ℚ) * 10 ^ t).den_pos
      have h1 : (((D : ℚ) * 10 ^ t).den : ℤ) ≤ 10 ^ (-t).toNat :=
        Int.le_of_dvd (by positivity) hden
      have h10 : (10 : ℤ) ^ (-t).toNat ≤ 10 ^ 341 := by
        apply pow_le_pow_right₀ (by norm_num)
        omega
      have h3 : (10 : ℤ) ^ 341 < 2 ^ 2500 := by norm_num
      have h4 : (((D : ℚ) * 10 ^ t).den : ℤ) < 2 ^ 2500 :=
        lt_of_le_of_lt h1 (lt_of_le_of_lt h10 h3)
      omega

theorem round_fix (q r : ℚ) (hq : 0 < q) (h : Repr64 q)
    (hrnum : r.num.toNat < 2 ^ 2500) (hrden : r.den < 2 ^ 2500)
    (h1 : |r - q| < 2 ^ (max (-1074) (flogQ 2 q - 52) - 1))
    (h2 : q = 2 ^ flogQ 2 q → |r - q| < 2 ^ (max (-1074) (flogQ 2 q - 52) - 2)) :
    roundF64pos r = q := by
  obtain ⟨hqnum, hqden, hlow, hhigh⟩ := repr_pos_bounds q hq h
  obtain ⟨M, hM1, hM53, hqM⟩ := repr_canonical q hq h
  obtain ⟨hL1, hL2⟩ := flogQ_spec 2 q (le_refl 2) hq hqnum hqden
  push_cast at hL1 hL2
  set L := flogQ 2 q with hLdef
  set e := max (-1074) (L - 52) with hedef
  have hp : ∀ t : ℤ, (0 : ℚ) < 2 ^ t := fun t => zpow_pos two_pos t
  have hmono : ∀ s t : ℤ, s ≤ t → (2 : ℚ) ^ s ≤ 2 ^ t := fun s t hst =>
    (zpow_le_zpow_iff_right₀ one_lt_two).mpr hst
  have hLlow : -1074 ≤ L := by
    by_contra hc
    push_neg at hc
    have hcc : (2 : ℚ) ^ (L + 1) ≤ 2 ^ (-1074 : ℤ) := hmono _ _ (by omega)
    linarith
  have heL : e ≤ L := by omega
  obtain ⟨h1a, h1b⟩ := abs_lt.mp h1
  have h2e : (2 : ℚ) ^ (e - 1) ≤ 2 ^ (L - 1) := hmono _ _ (by omega)
  have h2L : (2 : ℚ) ^ L = 2 ^ (L - 1) * 2 := by
    rw [← zpow_add_one₀ (two_ne_zero (α := ℚ))]
    congr 1
    omega
  have hr0 : 0 < r := by
    have := hp (L - 1)
    linarith
  have h2ee : (2 : ℚ) ^ e = 2 ^ (e - 1) * 2 := by
    rw [← zpow_add_one₀ (two_ne_zero (α := ℚ))]
    congr 1
    omega
  have hcast : ((2 ^ (L + 1 - e).toNat : ℤ) : ℚ) = (2 : ℚ) ^ (L + 1 - e) := by
    push_cast
    rw [← zpow_natCast (2 : ℚ) (L + 1 - e).toNat]
    congr 1
    omega
  have hsplit : (2 : ℚ) ^ (L + 1) = 2 ^ (L + 1 - e) * 2 ^ e := by
    rw [← zpow_add₀ (two_ne_zero (α := ℚ))]
    congr 1
    omega
  have hMlt : M < 2 ^ (L + 1 - e).toNat := by
    have hx : (M : ℚ) * 2 ^ e < (2 : ℚ) ^ (L + 1 - e) * 2 ^ e := by
      rw [← hqM, ← hsplit]
      exact hL2
    have hy : (M : ℚ) < (2 : ℚ) ^ (L + 1 - e) :=
      lt_of_mul_lt_mul_right hx (le_of_lt (hp e))
    rw [← hcast] at hy
    exact_mod_cast hy
  have hM' : (M : ℚ) ≤ ((2 ^ (L + 1 - e).toNat : ℤ) : ℚ) - 1 := by
    have : M ≤ 2 ^ (L + 1 - e).toNat - 1 := by linarith
    exact_mod_cast this
  have hqtop : q ≤ 2 ^ (L + 1) - 2 ^ e := by
    calc q = (M : ℚ) * 2 ^ e := hqM
      _ ≤ (((2 ^ (L + 1 - e).toNat : ℤ) : ℚ) - 1) * 2 ^ e :=
          mul_le_mul_of_nonneg_right hM' (le_of_lt (hp e))
      _ = 2 ^ (L + 1) - 2 ^ e := by rw [sub_mul, one_mul, hcast, ← hsplit]
  have hrtop : r < 2 ^ (L + 1) := by linarith [hp (e - 1), h2ee]
  have main : max (-1074) (flogQ 2 r - 52) = e → roundF64pos r = q := by
    intro hee
    rw [roundF64pos_eq, hee]
    have hd : r / 2 ^ e - (M : ℚ) = (r - q) / 2 ^ e := by
      rw [hqM, sub_div, mul_div_cancel_right₀ _ (ne_of_gt (hp e))]
    have hclose : |r / 2 ^ e - ((M : ℤ) : ℚ)| < 1 / 2 := by
      rw [hd, abs_div, abs_of_pos (hp e), div_lt_iff₀ (hp e)]
      have h1' : |r - q| < 2 ^ (e - 1) := h1
      linarith
    rw [rhe_eq_of_close M (r / 2 ^ e) hclose, ← hqM]
  rcases le_or_lt ((2 : ℚ) ^ L) r with hcase | hcase
  · have hLr : flogQ 2 r = L := by
      apply flogQ_unique 2 r L (le_refl 2) hr0 hrnum hrden
      · push_cast
        exact hcase
      · push_cast
        exact hrtop
    exact main (by rw [hLr])
  · have hrbot : (2 : ℚ) ^ (L - 1) < r := by linarith
    have hLr : flogQ 2 r = L - 1 := by
      apply flogQ_unique 2 r (L - 1) (le_refl 2) hr0 hrnum hrden
      · push_cast
        exact le_of_lt hrbot
      · push_cast
        rw [show L - 1 + 1 = L from by omega]
        exact hcase
    rcases lt_or_le (L - 53) (-1074 : ℤ) with hsub | hsub
    · exact main (by rw [hLr]; omega)
    · have heeq : e = L - 52 := by omega
      have hee : max (-1074) (flogQ 2 r - 52) = e - 1 := by rw [hLr]; omega
      have ha : (2 : ℚ) ^ L = ((2 ^ 52 : ℤ) : ℚ) * 2 ^ e := by
        rw [show ((2 ^ 52 : ℤ) : ℚ) = (2 : ℚ) ^ (52 : ℤ) from by norm_num,
          ← zpow_add₀ (two_ne_zero (α := ℚ))]
        congr 1
        omega
      have hMub : 2 * M < 2 ^ 53 + 1 := by
        have hub : (M : ℚ) * 2 ^ e < ((2 ^ 52 : ℤ) : ℚ) * 2 ^ e + 2 ^ (e - 1) := by
          rw [← hqM, ← ha]
          linarith
        have e1 : (M : ℚ) * 2 ^ e = ((2 * M : ℤ) : ℚ) * 2 ^ (e - 1) := by
          push_cast
          rw [h2ee]
          ring
        have e2 : ((2 ^ 52 : ℤ) : ℚ) * 2 ^ e + 2 ^ (e - 1) =
            ((2 ^ 53 + 1 : ℤ) : ℚ) * 2 ^ (e - 1) := by
          push_cast
          rw [h2ee]
          ring
        have hy : ((2 * M : ℤ) : ℚ) < ((2 ^ 53 + 1 : ℤ) : ℚ) := by
          apply lt_of_mul_lt_mul_right _ (le_of_lt (hp (e - 1)))
          rw [← e1, ← e2]
          exact hub
        exact_mod_cast hy
      have hMlb : (2 : ℤ) ^ 52 ≤ M := by
        have hlb : ((2 ^ 52 : ℤ) : ℚ) * 2 ^ e ≤ (M : ℚ) * 2 ^ e := by
          rw [← ha, ← hqM]
          exact hL1
        have hy : ((2 ^ 52 : ℤ) : ℚ) ≤ (M : ℚ) :=
          le_of_mul_le_mul_right hlb (hp e)
        exact_mod_cast hy
      have hM52 : M = 2 ^ 52 := by omega
      have hqL : q = 2 ^ L := by
        rw [hqM, hM52]
        exact ha.symm
      have hsharp : |r - q| < 2 ^ (e - 2) := h2 hqL
      rw [roundF64pos_eq, hee]
      have htgt : q / 2 ^ (e - 1) = ((2 ^ 53 : ℤ) : ℚ) := by
        rw [hqL,
          show ((2 ^ 53 : ℤ) : ℚ) = (2 : ℚ) ^ (53 : ℤ) from by norm_num,
          ← zpow_sub₀ (two_ne_zero (α := ℚ))]
        congr 1
        omega
      have hd : r / 2 ^ (e - 1) - ((2 ^ 53 : ℤ) : ℚ) = (r - q) / 2 ^ (e - 1) := by
        rw [← htgt]
        exact (sub_div r q _).symm
      have hclose : |r / 2 ^ (e - 1) - (((2 ^ 53 : ℤ) : ℤ) : ℚ)| < 1 / 2 := by
        rw [hd, abs_div, abs_of_pos (hp (e - 1)), div_lt_iff₀ (hp (e - 1))]
        have h2e2 : (2 : ℚ) ^ (e - 1) = 2 ^ (e - 2) * 2 := by
          rw [← zpow_add_one₀ (two_ne_zero (α := ℚ))]
          congr 1
          omega
        linarith
      rw [rhe_eq_of_close (2 ^ 53) (r / 2 ^ (e - 1)) hclose, ← htgt]
      exact div_mul_cancel₀ q (ne_of_gt (hp (e - 1)))

theorem dRange (q : ℚ) (hq : 0 < q) (h : Repr64 q) :
    -324 ≤ flogQ 10 q ∧ flogQ 10 q ≤ 308 := by
  obtain ⟨hqnum, hqden, hlow, hhigh⟩ := repr_pos_bounds q hq h
  have hnum10 : q.num.toNat < 10 ^ 2500 :=
    lt_of_lt_of_le hqnum (Nat.pow_le_pow_left (by norm_num) 2500)
  have hden10 : q.den < 10 ^ 2500 :=
    lt_of_lt_of_le hqden (Nat.pow_le_pow_left (by norm_num) 2500)
  obtain ⟨hd1, hd2⟩ := flogQ_spec 10 q (by norm_num) hq hnum10 hden10
  push_cast at hd1 hd2
  have hmono10 : ∀ s t : ℤ, s ≤ t → (10 : ℚ) ^ s ≤ 10 ^ t := fun s t hst =>
    (zpow_le_zpow_iff_right₀ (by norm_num)).mpr hst
  constructor
  · by_contra hc
    push_neg at hc
    have hx1 : (10 : ℚ) ^ (flogQ 10 q + 1) ≤ 10 ^ (-324 : ℤ) := hmono10 _ _ (by omega)
    have hx2 : (10 : ℚ) ^ (-324 : ℤ) < (2 : ℚ) ^ (-1074 : ℤ) := by
      rw [zpow_neg, zpow_neg]
      rw [inv_lt_inv₀ (by positivity) (by positivity)]
      rw [show (2 : ℚ) ^ (1074 : ℤ) = ((2 ^ 1074 : ℕ) : ℚ) from by
          push_cast; rw [← zpow_natCast]; norm_num,
        show (10 : ℚ) ^ (324 : ℤ) = ((10 ^ 324 : ℕ) : ℚ) from by
          push_cast; rw [← zpow_natCast]; norm_num]
      exact_mod_cast (by norm_num : (2 : ℕ) ^ 1074 < 10 ^ 324)
    linarith
  · by_contra hc
    push_neg at hc
    have hx1 : (10 : ℚ) ^ (309 : ℤ) ≤ 10 ^ flogQ 10 q := hmono10 _ _ (by omega)
    have hx2 : (2 : ℚ) ^ (1024 : ℤ) < (10 : ℚ) ^ (309 : ℤ) := by
      rw [show (2 : ℚ) ^ (1024 : ℤ) = ((2 ^ 1024 : ℕ) : ℚ) from by
          push_cast; rw [← zpow_natCast]; norm_num,
        show (10 : ℚ) ^ (309 : ℤ) = ((10 ^ 309 : ℕ) : ℚ) from by
          push_cast; rw [← zpow_natCast]; norm_num]
      exact_mod_cast (by norm_num : (2 : ℕ) ^ 1024 < 10 ^ 309)
    linarith

theorem renderValue_eq (q : ℚ) (k : ℕ) (hk : 1 ≤ k) :
    renderValue q k =
      (rhe (q / 10 ^ (flogQ 10 q + 1 - k)) : ℚ) * 10 ^ (flogQ 10 q + 1 - k) := by
  simp only [renderValue, renderDigits]
  split_ifs with hD
  · simp only []
    rw [hD]
    rw [show ((10 ^ (k - 1) : ℤ) : ℚ) = (10 : ℚ) ^ ((k : ℤ) - 1) from by
        push_cast
        rw [← zpow_natCast (10 : ℚ) (k - 1)]
        congr 1
        omega,
      show ((10 ^ k : ℤ) : ℚ) = (10 : ℚ) ^ (k : ℤ) from by
        push_cast
        rw [← zpow_natCast (10 : ℚ) k],
      ← zpow_add₀ (by norm_num : (10 : ℚ) ≠ 0),
      ← zpow_add₀ (by norm_num : (10 : ℚ) ≠ 0)]
    congr 1
    omega
  · rfl

theorem renderDigits_snd (q : ℚ) (k : ℕ) :
    (renderDigits q k).2 = flogQ 10 q + 1 ∨ (renderDigits q k).2 = flogQ 10 q + 2 := by
  simp only [renderDigits]
  split_ifs <;> simp

theorem renderDigits_fst (q : ℚ) (k : ℕ) (hq : 0 < q) (hk : 1 ≤ k)
    (hnum : q.num.toNat < 10 ^ 2500) (hden : q.den < 10 ^ 2500) :
    10 ^ (k - 1) ≤ (renderDigits q k).1 ∧ (renderDigits q k).1 < 10 ^ k := by
  obtain ⟨hd1, hd2⟩ := flogQ_spec 10 q (by norm_num) hq hnum hden
  push_cast at hd1 hd2
  set d := flogQ 10 q with hddef
  set t := d + 1 - (k : ℤ) with htdef
  set x := q / 10 ^ t with hxdef
  have hpow : (0 : ℚ) < 10 ^ t := zpow_pos (by norm_num) t
  have hcast1 : ((10 ^ (k - 1) : ℤ) : ℚ) = (10 : ℚ) ^ ((k : ℤ) - 1) := by
    push_cast
    rw [← zpow_natCast (10 : ℚ) (k - 1)]
    congr 1
    omega
  have hcast2 : ((10 ^ k : ℤ) : ℚ) = (10 : ℚ) ^ (k : ℤ) := by
    push_cast
    rw [← zpow_natCast (10 : ℚ) k]
  have hx1 : ((10 ^ (k - 1) : ℤ) : ℚ) ≤ x := by
    rw [hcast1, hxdef, le_div_iff₀ hpow, ← zpow_add₀ (by norm_num : (10 : ℚ) ≠ 0)]
    rw [show (k : ℤ) - 1 + t = d from by omega]
    exact hd1
  have hx2 : x < ((10 ^ k : ℤ) : ℚ) := by
    rw [hcast2, hxdef, div_lt_iff₀ hpow, ← zpow_add₀ (by norm_num : (10 : ℚ) ≠ 0)]
    rw [show (k : ℤ) + t = d + 1 from by omega]
    exact hd2
  have hfl1 : (10 ^ (k - 1) : ℤ) ≤ ⌊x⌋ := Int.le_floor.mpr hx1
  have hfl2 : ⌊x⌋ < (10 ^ k : ℤ) := Int.floor_lt.mpr hx2
  obtain ⟨hr1, hr2⟩ := rhe_int_bounds x
  have hk10 : (10 ^ (k - 1) : ℤ) < 10 ^ k := by
    apply pow_lt_pow_right₀ (by norm_num)
    omega
  simp only [renderDigits, ← hddef, ← htdef, ← hxdef]
  split_ifs with hD
  · exact ⟨le_refl _, hk10⟩
  · constructor
    · omega
    · have : rhe x ≤ 10 ^ k := by omega
      omega

theorem renderValue_close (q : ℚ) (k : ℕ) (hk : 1 ≤ k) :
    |renderValue q k - q| ≤ 1 / 2 * 10 ^ (flogQ 10 q + 1 - k) := by
  rw [renderValue_eq q k hk]
  set t := flogQ 10 q + 1 - (k : ℤ) with htdef
  set x := q / 10 ^ t with hxdef
  have hpow : (0 : ℚ) < 10 ^ t := zpow_pos (by norm_num) t
  have hq' : x * 10 ^ t = q := div_mul_cancel₀ q (ne_of_gt hpow)
  calc |(rhe x : ℚ) * 10 ^ t - q| = |((rhe x : ℚ) - x) * 10 ^ t| := by
        rw [sub_mul, hq']
    _ = |(rhe x : ℚ) - x| * 10 ^ t := by
        rw [abs_mul, abs_of_pos hpow]
    _ ≤ 1 / 2 * 10 ^ t :=
        mul_le_mul_of_nonneg_right (rhe_abs_le x) (le_of_lt hpow)

theorem h2_53_lt_10_16 : (2 : ℚ) ^ (53 : ℤ) < (10 : ℚ) ^ (16 : ℤ) := by
  rw [show (2 : ℚ) ^ (53 : ℤ) = (2 : ℚ) ^ (53 : ℕ) from by
      rw [← zpow_natCast (2 : ℚ) 53]; norm_num,
    show (10 : ℚ) ^ (16 : ℤ) = (10 : ℚ) ^ (16 : ℕ) from by
      rw [← zpow_natCast (10 : ℚ) 16]; norm_num]
  norm_num

theorem exists17 (q : ℚ) (hq : 0 < q) (h : Repr64 q) : roundTrips q 17 = true := by
  obtain ⟨hqnum, hqden, hlow, hhigh⟩ := repr_pos_bounds q hq h
  obtain ⟨hd324, hd308⟩ := dRange q hq h
  obtain ⟨hL1, hL2⟩ := flogQ_spec 2 q (le_refl 2) hq hqnum hqden
  push_cast at hL1 hL2
  have hnum10 : q.num.toNat < 10 ^ 2500 :=
    lt_of_lt_of_le hqnum (Nat.pow_le_pow_left (by norm_num) 2500)
  have hden10 : q.den < 10 ^ 2500 :=
    lt_of_lt_of_le hqden (Nat.pow_le_pow_left (by norm_num) 2500)
  obtain ⟨hq1, hq2⟩ := flogQ_spec 10 q (by norm_num) hq hnum10 hden10
  push_cast at hq1 hq2
  set L := flogQ 2 q with hLdef
  set d := flogQ 10 q with hddef
  set e := max (-1074) (L - 52) with hedef
  have hp : ∀ t : ℤ, (0 : ℚ) < 2 ^ t := fun t => zpow_pos two_pos t
  have hp10 : ∀ t : ℤ, (0 : ℚ) < 10 ^ t := fun t => zpow_pos (by norm_num) t
  have hmono : ∀ s t : ℤ, s ≤ t → (2 : ℚ) ^ s ≤ 2 ^ t := fun s t hst =>
    (zpow_le_zpow_iff_right₀ one_lt_two).mpr hst
  have hLlow : -1074 ≤ L := by
    by_contra hc
    push_neg at hc
    have hcc : (2 : ℚ) ^ (L + 1) ≤ 2 ^ (-1074 : ℤ) := hmono _ _ (by omega)
    linarith
  have hclose : |renderValue q 17 - q| ≤ 1 / 2 * 10 ^ (d - 16) := by
    have hc := renderValue_close q 17 (by norm_num)
    rw [show d + 1 - ((17 : ℕ) : ℤ) = d - 16 from by push_cast; ring] at hc
    exact hc
  have key1 : (10 : ℚ) ^ (d - 16) < 2 ^ e := by
    rw [zpow_sub₀ (by norm_num : (10 : ℚ) ≠ 0), div_lt_iff₀ (hp10 16)]
    have hc1 : (2 : ℚ) ^ (L + 1) ≤ 2 ^ (e + 53) := hmono _ _ (by omega)
    have hc2 : (2 : ℚ) ^ (e + 53) = 2 ^ (53 : ℤ) * 2 ^ e := by
      rw [← zpow_add₀ (two_ne_zero (α := ℚ))]
      congr 1
      omega
    have hc3 : (2 : ℚ) ^ (53 : ℤ) * 2 ^ e < 10 ^ (16 : ℤ) * 2 ^ e :=
      mul_lt_mul_of_pos_right h2_53_lt_10_16 (hp e)
    have hc4 : (10 : ℚ) ^ (16 : ℤ) * 2 ^ e = 2 ^ e * 10 ^ (16 : ℤ) := mul_comm _ _
    linarith
  have key2 : q = 2 ^ L → (10 : ℚ) ^ (d - 16) < 2 ^ (e - 1) := by
    intro hqL
    rw [zpow_sub₀ (by norm_num : (10 : ℚ) ≠ 0), div_lt_iff₀ (hp10 16)]
    have hc1 : (2 : ℚ) ^ L ≤ 2 ^ (e + 52) := hmono _ _ (by omega)
    have hc2 : (2 : ℚ) ^ (e + 52) = 2 ^ (53 : ℤ) * 2 ^ (e - 1) := by
      rw [← zpow_add₀ (two_ne_zero (α := ℚ))]
      congr 1
      omega
    have hc3 : (2 : ℚ) ^ (53 : ℤ) * 2 ^ (e - 1) < 10 ^ (16 : ℤ) * 2 ^ (e - 1) :=
      mul_lt_mul_of_pos_right h2_53_lt_10_16 (hp (e - 1))
    have hc4 : (10 : ℚ) ^ (16 : ℤ) * 2 ^ (e - 1) = 2 ^ (e - 1) * 10 ^ (16 : ℤ) :=
      mul_comm _ _
    linarith
  obtain ⟨hD1, hD2⟩ := renderDigits_fst q 17 hq (by norm_num) hnum10 hden10
  have hsnd := renderDigits_snd q 17
  have hrdef : renderValue q 17 =
      (((renderDigits q 17).1 : ℤ) : ℚ) * 10 ^ ((renderDigits q 17).2 - ((17 : ℕ) : ℤ)) := rfl
  obtain ⟨hrnum, hrden⟩ :=
    mulPow10_num_den (renderDigits q 17).1 ((renderDigits q 17).2 - ((17 : ℕ) : ℤ))
      (by norm_num at hD1 ⊢; omega)
      (by norm_num at hD2 ⊢; omega)
      (by rcases hsnd with hs | hs <;> rw [hs] <;> push_cast <;> omega)
      (by rcases hsnd with hs | hs <;> rw [hs] <;> push_cast <;> omega)
  rw [← hrdef] at hrnum hrden
  have hfix : roundF64pos (renderValue q 17) = q := by
    apply round_fix q (renderValue q 17) hq h hrnum hrden
    · rw [← hLdef, ← hedef]
      have h2e : (2 : ℚ) ^ e = 2 ^ (e - 1) * 2 := by
        rw [← zpow_add_one₀ (two_ne_zero (α := ℚ))]
        congr 1
        omega
      calc |renderValue q 17 - q| ≤ 1 / 2 * 10 ^ (d - 16) := hclose
        _ < 2 ^ (e - 1) := by linarith
    · intro hqL
      rw [← hLdef, ← hedef]
      have hk2 := key2 (by rw [← hLdef] at hqL; exact hqL)
      have h2e : (2 : ℚ) ^ (e - 1) = 2 ^ (e - 2) * 2 := by
        rw [← zpow_add_one₀ (two_ne_zero (α := ℚ))]
        congr 1
        omega
      calc |renderValue q 17 - q| ≤ 1 / 2 * 10 ^ (d - 16) := hclose
        _ < 2 ^ (e - 2) := by linarith
  show (roundF64pos (renderValue q 17) == q) = true
  rw [hfix]
  exact beq_self_eq_true q

theorem findKaux_sound (q : ℚ) : ∀ (f k0 k : ℕ), findKaux q f k0 = some k →
    k0 ≤ k ∧ k < k0 + f ∧ roundTrips q k = true ∧
      ∀ j, k0 ≤ j → j < k → roundTrips q j = false := by
  intro f
  induction f with
  | zero =>
    intro k0 k hk
    simp [findKaux] at hk
  | succ f ih =>
    intro k0 k hk
    rw [findKaux] at hk
    by_cases hrt : roundTrips q k0 = true
    · rw [if_pos hrt] at hk
      obtain rfl : k0 = k := by
        injection hk
      exact ⟨le_refl _, by omega, hrt, fun j hj1 hj2 => absurd hj1 (by omega)⟩
    · rw [if_neg hrt] at hk
      obtain ⟨h1, h2, h3, h4⟩ := ih (k0 + 1) k hk
      refine ⟨by omega, by omega, h3, ?_⟩
      intro j hj1 hj2
      rcases eq_or_lt_of_le hj1 with rfl | hlt
      · simp only [Bool.not_eq_true] at hrt
        exact hrt
      · exact h4 j (by omega) hj2

theorem findKaux_complete (q : ℚ) : ∀ (f k0 : ℕ), roundTrips q (k0 + f) = true →
    (findKaux q (f + 1) k0).isSome = true := by
  intro f
  induction f with
  | zero =>
    intro k0 h
    rw [findKaux, if_pos (by simpa using h)]
    rfl
  | succ f ih =>
    intro k0 h
    rw [findKaux]
    by_cases hrt : roundTrips q k0 = true
    · rw [if_pos hrt]
      rfl
    · rw [if_neg hrt]
      exact ih (k0 + 1) (by rw [show k0 + 1 + f = k0 + (f + 1) from by omega]; exact h)

theorem findK_spec (q : ℚ) (h17 : roundTrips q 17 = true) :
    ∃ k, findK q = some k ∧ 1 ≤ k ∧ k ≤ 17 ∧ roundTrips q k = true ∧
      ∀ j, 1 ≤ j → j < k → roundTrips q j = false := by
  have hc : (findKaux q 17 1).isSome = true :=
    findKaux_complete q 16 1 (by simpa using h17)
  obtain ⟨k, hk⟩ := Option.isSome_iff_exists.mp hc
  obtain ⟨h1, h2, h3, h4⟩ := findKaux_sound q 17 1 k hk
  exact ⟨k, hk, h1, by omega, h3, h4⟩

theorem ofDigBE_shift : ∀ (l : List ℕ) (i : ℕ),
    l.foldl (fun a d => 10 * a + d) i = i * 10 ^ l.length + ofDigBE l := by
  intro l
  induction l with
  | nil =>
    intro i
    simp [ofDigBE]
  | cons d t ih =>
    intro i
    show t.foldl _ (10 * i + d) = _
    rw [ih (10 * i + d)]
    have h2 : ofDigBE (d :: t) = d * 10 ^ t.length + ofDigBE t := by
      show t.foldl _ (10 * 0 + d) = _
      rw [ih (10 * 0 + d)]
      ring
    rw [h2, List.length_cons]
    ring

theorem ofDigBE_cons (d : ℕ) (t : List ℕ) :
    ofDigBE (d :: t) = d * 10 ^ t.length + ofDigBE t := by
  show t.foldl _ (10 * 0 + d) = _
  rw [ofDigBE_shift t (10 * 0 + d)]
  ring

theorem ofDigBE_append (a b : List ℕ) :
    ofDigBE (a ++ b) = ofDigBE a * 10 ^ b.length + ofDigBE b := by
  show (a ++ b).foldl _ 0 = _
  rw [List.foldl_append]
  exact ofDigBE_shift b _

theorem ofDigBE_replicate0 (z : ℕ) : ofDigBE (List.replicate z 0) = 0 := by
  induction z with
  | zero => rfl
  | succ z ih =>
    rw [List.replicate_succ, ofDigBE_cons, ih]
    ring

theorem charDigit_digitChar (d : ℕ) (h : d < 10) : charDigit (digitChar d) = d := by
  interval_cases d <;> rfl

theorem digitChar_isDigit (d : ℕ) (h : d < 10) : (digitChar d).isDigit = true := by
  interval_cases d <;> rfl

theorem map_charDigit_digitChar (l : List ℕ) (h : ∀ d ∈ l, d < 10) :
    (l.map digitChar).map charDigit = l := by
  rw [List.map_map]
  have hc : ∀ d ∈ l, (charDigit ∘ digitChar) d = id d := fun d hd =>
    charDigit_digitChar d (h d hd)
  rw [List.map_congr_left hc, List.map_id]

theorem takeWhile_digits_append (l r : List Char) (hl : ∀ c ∈ l, c.isDigit = true)
    (hr : (r.headD '.').isDigit = false) :
    (l ++ r).takeWhile Char.isDigit = l ∧ (l ++ r).dropWhile Char.isDigit = r := by
  induction l with
  | nil =>
    simp only [List.nil_append]
    cases r with
    | nil => simp
    | cons c t =>
      simp only [List.headD_cons] at hr
      simp [List.takeWhile_cons, List.dropWhile_cons, hr]
  | cons a l ih =>
    have ha : a.isDigit = true := hl a (by simp)
    obtain ⟨ih1, ih2⟩ := ih fun c hc => hl c (by simp [hc])
    simp [List.takeWhile_cons, List.dropWhile_cons, ha, ih1, ih2]

theorem natToDigitsAux_val : ∀ (f n : ℕ), n < 10 ^ f →
    (∀ d ∈ natToDigitsAux f n, d < 10) ∧ ofDigBE (natToDigitsAux f n) = n ∧
      (1 ≤ f → natToDigitsAux f n ≠ []) := by
  intro f
  induction f with
  | zero =>
    intro n h
    norm_num at h
    subst h
    simp [natToDigitsAux, ofDigBE]
  | succ f ih =>
    intro n h
    rw [natToDigitsAux]
    by_cases hn : n < 10
    · rw [if_pos hn]
      refine ⟨by simpa using hn, ?_, by simp⟩
      show [n].foldl _ 0 = n
      simp
    · rw [if_neg hn]
      have hq : n / 10 < 10 ^ f := by
        rw [Nat.div_lt_iff_lt_mul (by norm_num : 0 < 10)]
        calc n < 10 ^ (f + 1) := h
          _ = 10 ^ f * 10 := by rw [pow_succ]
      obtain ⟨ihd, ihv, _⟩ := ih (n / 10) hq
      refine ⟨?_, ?_, by simp⟩
      · intro d hd
        rw [List.mem_append] at hd
        rcases hd with hd | hd
        · exact ihd d hd
        · simp at hd
          omega
      · rw [ofDigBE_append, ihv]
        have : ofDigBE [n % 10] = n % 10 := by
          show [n % 10].foldl _ 0 = n % 10
          simp
        rw [this]
        simp
        omega

theorem natToDigitsAux_len : ∀ (f n k : ℕ), 1 ≤ k → k ≤ f → 10 ^ (k - 1) ≤ n →
    n < 10 ^ k → (natToDigitsAux f n).length = k := by
  intro f
  induction f with
  | zero =>
    intro n k h1 h2 _ _
    omega
  | succ f ih =>
    intro n k h1 h2 h3 h4
    rw [natToDigitsAux]
    by_cases hn : n < 10
    · rw [if_pos hn]
      have hk1 : k = 1 := by
        by_contra hk
        have hx : (10 : ℕ) ^ 1 ≤ 10 ^ (k - 1) :=
          Nat.pow_le_pow_right (by norm_num) (by omega)
        simp at hx
        omega
      simp [hk1]
    · rw [if_neg hn]
      have hk2 : 2 ≤ k := by
        by_contra hk
        have hk1 : k = 1 := by omega
        subst hk1
        norm_num at h4
        omega
      have e1 : 10 ^ (k - 1 - 1) ≤ n / 10 := by
        rw [Nat.le_div_iff_mul_le (by norm_num : 0 < 10)]
        calc 10 ^ (k - 1 - 1) * 10 = 10 ^ (k - 1) := by
              rw [← pow_succ]
              congr 1
              omega
          _ ≤ n := h3
      have e2 : n / 10 < 10 ^ (k - 1) := by
        rw [Nat.div_lt_iff_lt_mul (by norm_num : 0 < 10)]
        calc n < 10 ^ k := h4
          _ = 10 ^ (k - 1) * 10 := by
              rw [← pow_succ]
              congr 1
              omega
      rw [List.length_append, ih (n / 10) (k - 1) (by omega) (by omega) e1 e2]
      simp
      omega

theorem all_digits_map (l : List ℕ) (h : ∀ d ∈ l, d < 10) :
    ∀ c ∈ l.map digitChar, c.isDigit = true := by
  intro c hc
  rw [List.mem_map] at hc
  obtain ⟨d, hd, rfl⟩ := hc
  exact digitChar_isDigit d (h d hd)

theorem parse_digits_only (s : List ℕ) (hs : ∀ d ∈ s, d < 10) (hne : s ≠ []) :
    parseUnsigned (s.map digitChar) = some ((ofDigBE s : ℕ) : ℚ) := by
  have h := takeWhile_digits_append (s.map digitChar) [] (all_digits_map s hs) (by rfl)
  rw [List.append_nil] at h
  simp only [parseUnsigned]
  rw [h.1, h.2]
  rw [if_neg (by simp [hne])]
  simp [map_charDigit_digitChar s hs, ofDigBE]

theorem parse_int_frac (a b : List ℕ) (ha : ∀ d ∈ a, d < 10) (hb : ∀ d ∈ b, d < 10)
    (hane : a ≠ []) :
    parseUnsigned (a.map digitChar ++ '.' :: b.map digitChar) =
      some ((ofDigBE a : ℚ) + (ofDigBE b : ℚ) / 10 ^ b.length) := by
  have h1 := takeWhile_digits_append (a.map digitChar) ('.' :: b.map digitChar)
    (all_digits_map a ha) (by rfl)
  have h2 := takeWhile_digits_append (b.map digitChar) [] (all_digits_map b hb) (by rfl)
  rw [List.append_nil] at h2
  simp only [parseUnsigned]
  rw [h1.1, h1.2]
  simp [h2.1, h2.2, hane, map_charDigit_digitChar a ha, map_charDigit_digitChar b hb]

theorem parseExponent_plus (mant : ℚ) (u : List Char) :
    parseExponent mant ('+' :: u) =
      if u = [] ∨ ¬(u.all Char.isDigit = true) then none
      else some (mant * 10 ^ (ofDigBE (u.map charDigit) : ℤ)) := rfl

theorem parseExponent_minus (mant : ℚ) (u : List Char) :
    parseExponent mant ('-' :: u) =
      if u = [] ∨ ¬(u.all Char.isDigit = true) then none
      else some (mant * 10 ^ (-(ofDigBE (u.map charDigit) : ℤ))) := rfl

theorem parseExponent_spec (mant : ℚ) (m : ℤ) (hm : m.natAbs < 10 ^ 20) :
    parseExponent mant
        ((if 0 ≤ m then '+' else '-') :: (natToDigits m.natAbs).map digitChar) =
      some (mant * 10 ^ m) := by
  simp only [natToDigits]
  obtain ⟨hd, hv, hnn⟩ := natToDigitsAux_val 20 m.natAbs hm
  have hne' : (natToDigitsAux 20 m.natAbs).map digitChar ≠ [] := by
    simp only [ne_eq, List.map_eq_nil_iff]
    exact hnn (by norm_num)
  have hall : ((natToDigitsAux 20 m.natAbs).map digitChar).all Char.isDigit = true := by
    rw [List.all_eq_true]
    exact all_digits_map _ hd
  have hval : (ofDigBE (((natToDigitsAux 20 m.natAbs).map digitChar).map charDigit) : ℤ) =
      (m.natAbs : ℤ) := by
    rw [map_charDigit_digitChar _ hd, hv]
  rcases le_or_lt 0 m with hm0 | hm0
  · rw [if_pos hm0, parseExponent_plus, if_neg (by simp [hne', hall]), hval,
      Int.natAbs_of_nonneg hm0]
  · rw [if_neg (by omega), parseExponent_minus, if_neg (by simp [hne', hall]), hval,
      show -((m.natAbs : ℤ)) = m from by omega]

theorem parse_int_exp (a : List ℕ) (ha : ∀ d ∈ a, d < 10) (hane : a ≠ []) (m : ℤ)
    (hm : m.natAbs < 10 ^ 20) :
    parseUnsigned (a.map digitChar ++ 'e' ::
        (if 0 ≤ m then '+' else '-') :: (natToDigits m.natAbs).map digitChar) =
      some ((ofDigBE a : ℚ) * 10 ^ m) := by
  have h1 := takeWhile_digits_append (a.map digitChar)
    ('e' :: (if 0 ≤ m then '+' else '-') :: (natToDigits m.natAbs).map digitChar)
    (all_digits_map a ha) (by rfl)
  have hspec := parseExponent_spec ((ofDigBE a : ℕ) : ℚ) m hm
  have hcompa : List.map (charDigit ∘ digitChar) a = a := by
    rw [← List.map_map]
    exact map_charDigit_digitChar a ha
  simp only [parseUnsigned]
  rw [h1.1, h1.2]
  simpa [hane, hcompa, show ofDigBE [] = 0 from rfl] using hspec

theorem parse_frac_exp (a b : List ℕ) (ha : ∀ d ∈ a, d < 10) (hb : ∀ d ∈ b, d < 10)
    (hane : a ≠ []) (m : ℤ) (hm : m.natAbs < 10 ^ 20) :
    parseUnsigned (a.map digitChar ++ '.' :: (b.map digitChar ++ 'e' ::
        (if 0 ≤ m then '+' else '-') :: (natToDigits m.natAbs).map digitChar)) =
      some (((ofDigBE a : ℚ) + (ofDigBE b : ℚ) / 10 ^ b.length) * 10 ^ m) := by
  have h1 := takeWhile_digits_append (a.map digitChar) ('.' :: (b.map digitChar ++ 'e' ::
      (if 0 ≤ m then '+' else '-') :: (natToDigits m.natAbs).map digitChar))
    (all_digits_map a ha) (by rfl)
  have h2 := takeWhile_digits_append (b.map digitChar) ('e' ::
      (if 0 ≤ m then '+' else '-') :: (natToDigits m.natAbs).map digitChar)
    (all_digits_map b hb) (by rfl)
  have hspec := parseExponent_spec ((ofDigBE a : ℚ) + (ofDigBE b : ℚ) / 10 ^ b.length) m hm
  have hcompa : List.map (charDigit ∘ digitChar) a = a := by
    rw [← List.map_map]
    exact map_charDigit_digitChar a ha
  have hcompb : List.map (charDigit ∘ digitChar) b = b := by
    rw [← List.map_map]
    exact map_charDigit_digitChar b hb
  simp only [parseUnsigned]
  rw [h1.1, h1.2]
  simp only [List.cons_append] at h2 ⊢
  simpa [h2.1, h2.2, hane, hcompa, hcompb] using hspec

theorem parse_fmt1 (s : List ℕ) (n : ℤ) (hs : ∀ d ∈ s, d < 10) (hne : s ≠ [])
    (h : (s.length : ℤ) ≤ n) :
    parseUnsigned (s.map digitChar ++ List.replicate (n - s.length).toNat '0') =
      some ((ofDigBE s : ℚ) * 10 ^ (n - s.length)) := by
  set z := (n - (s.length : ℤ)).toNat with hz
  have key := parse_digits_only (s ++ List.replicate z 0)
    (by
      intro d hd
      rw [List.mem_append] at hd
      rcases hd with hd | hd
      · exact hs d hd
      · rw [List.mem_replicate] at hd
        omega)
    (by simp [hne])
  rw [List.map_append, List.map_replicate, show digitChar 0 = '0' from rfl] at key
  rw [key]
  congr 1
  rw [ofDigBE_append, ofDigBE_replicate0, List.length_replicate]
  push_cast
  rw [show (10 : ℚ) ^ (z : ℕ) = (10 : ℚ) ^ (n - (s.length : ℤ)) from by
    rw [← zpow_natCast]
    congr 1
    omega]
  ring

theorem ofDigBE_split (a b : List ℕ) :
    (ofDigBE (a ++ b) : ℚ) * 10 ^ (-(b.length : ℤ)) =
      (ofDigBE a : ℚ) + (ofDigBE b : ℚ) / 10 ^ b.length := by
  rw [ofDigBE_append]
  push_cast
  rw [zpow_neg, ← zpow_natCast (10 : ℚ) b.length]
  have h0 : ((10 : ℚ) ^ ((b.length : ℕ) : ℤ)) ≠ 0 := zpow_ne_zero _ (by norm_num)
  field_simp

theorem parse_fmt5_val (d0 : ℕ) (s0 : List ℕ) (n : ℤ) :
    ((ofDigBE [d0] : ℚ) + (ofDigBE s0 : ℚ) / 10 ^ s0.length) * 10 ^ (n - 1) =
      (ofDigBE (d0 :: s0) : ℚ) * 10 ^ (n - (d0 :: s0).length) := by
  have h1 : ofDigBE [d0] = d0 := by
    rw [ofDigBE_cons]
    simp [show ofDigBE ([] : List ℕ) = 0 from rfl]
  rw [h1, ofDigBE_cons]
  simp only [List.length_cons]
  push_cast
  rw [show (n : ℤ) - ((s0.length : ℤ) + 1) = (n - 1) + (-(s0.length : ℤ)) from by ring,
    zpow_add₀ (by norm_num : (10 : ℚ) ≠ 0), zpow_neg, ← zpow_natCast (10 : ℚ) s0.length]
  have h0 : ((10 : ℚ) ^ ((s0.length : ℕ) : ℤ)) ≠ 0 := zpow_ne_zero _ (by norm_num)
  field_simp

theorem parse_fmt (s : List ℕ) (n : ℤ) (hs : ∀ d ∈ s, d < 10) (hne : s ≠ [])
    (hm : (n - 1).natAbs < 10 ^ 20) :
    ∃ c t, fmtDigits s n = c :: t ∧ c.isDigit = true ∧
      parseUnsigned (c :: t) = some ((ofDigBE s : ℚ) * 10 ^ (n - s.length)) := by
  obtain ⟨d0, s0, rfl⟩ : ∃ d0 s0, s = d0 :: s0 := by
    cases s with
    | nil => exact absurd rfl hne
    | cons a t => exact ⟨a, t, rfl⟩
  have hd0 : d0 < 10 := hs d0 (by simp)
  simp only [fmtDigits]
  by_cases hb1 : (((d0 :: s0).length : ℤ) ≤ n ∧ n ≤ 21)
  · rw [if_pos hb1]
    refine ⟨digitChar d0, List.map digitChar s0 ++
      List.replicate (n - ((d0 :: s0).length : ℤ)).toNat '0', by simp,
      digitChar_isDigit d0 hd0, ?_⟩
    rw [show digitChar d0 :: (List.map digitChar s0 ++
        List.replicate (n - ((d0 :: s0).length : ℤ)).toNat '0') =
      (d0 :: s0).map digitChar ++ List.replicate (n - ((d0 :: s0).length : ℤ)).toNat '0' from by
        simp]
    exact parse_fmt1 (d0 :: s0) n hs hne hb1.1
  rw [if_neg hb1]
  by_cases hb2 : (0 < n ∧ n ≤ 21)
  · rw [if_pos hb2]
    obtain ⟨m, hm2⟩ : ∃ m, n.toNat = m + 1 := ⟨n.toNat - 1, by omega⟩
    have htk : (d0 :: s0).take n.toNat = d0 :: s0.take m := by
      rw [hm2, List.take_succ_cons]
    have hsplit : (d0 :: s0) = (d0 :: s0).take n.toNat ++ (d0 :: s0).drop n.toNat :=
      (List.take_append_drop _ _).symm
    have hlt : n < ((d0 :: s0).length : ℤ) := by
      by_contra hc
      push_neg at hc hb1
      have := hb1 hc
      omega
    have key := parse_int_frac ((d0 :: s0).take n.toNat) ((d0 :: s0).drop n.toNat)
      (fun d hd => hs d (List.take_subset _ _ hd))
      (fun d hd => hs d (List.drop_subset _ _ hd))
      (by rw [htk]; simp)
    refine ⟨digitChar d0, List.map digitChar (s0.take m) ++
      '.' :: List.map digitChar ((d0 :: s0).drop n.toNat), ?_, digitChar_isDigit d0 hd0, ?_⟩
    · rw [htk]
      simp
    · rw [show digitChar d0 :: (List.map digitChar (s0.take m) ++
          '.' :: List.map digitChar ((d0 :: s0).drop n.toNat)) =
        ((d0 :: s0).take n.toNat).map digitChar ++
          '.' :: ((d0 :: s0).drop n.toNat).map digitChar from by rw [htk]; simp]
      rw [key]
      congr 1
      rw [← ofDigBE_split ((d0 :: s0).take n.toNat) ((d0 :: s0).drop n.toNat),
        ← hsplit]
      congr 1
      have hld : (((d0 :: s0).drop n.toNat).length : ℤ) = ((d0 :: s0).length : ℤ) - n := by
        rw [List.length_drop]
        push_cast
        omega
      rw [hld]
      ring
  rw [if_neg hb2]
  by_cases hb3 : (-6 < n ∧ n ≤ 0)
  · rw [if_pos hb3]
    set z := (-n).toNat with hzdef
    have hmap : List.replicate z '0' ++ List.map digitChar (d0 :: s0) =
        (List.replicate z 0 ++ (d0 :: s0)).map digitChar := by
      rw [List.map_append, List.map_replicate, show digitChar 0 = '0' from rfl]
    have key := parse_int_frac [0] (List.replicate z 0 ++ (d0 :: s0))
      (by intro d hd; simp at hd; omega)
      (by
        intro d hd
        rw [List.mem_append] at hd
        rcases hd with hd | hd
        · rw [List.mem_replicate] at hd
          omega
        · exact hs d hd)
      (by simp)
    refine ⟨'0', '.' :: (List.replicate z '0' ++ List.map digitChar (d0 :: s0)),
      by simp, by rfl, ?_⟩
    rw [show ('0' :: '.' :: (List.replicate z '0' ++ List.map digitChar (d0 :: s0))) =
      ([0] : List ℕ).map digitChar ++
        '.' :: (List.replicate z 0 ++ (d0 :: s0)).map digitChar from by
      rw [← hmap]; rfl]
    rw [key]
    congr 1
    have hv : ofDigBE (List.replicate z 0 ++ (d0 :: s0)) = ofDigBE (d0 :: s0) := by
      rw [ofDigBE_append, ofDigBE_replicate0]
      simp
    have h01 : ofDigBE [0] = 0 := rfl
    rw [hv, h01, List.length_append, List.length_replicate]
    push_cast
    rw [show (n : ℤ) - ((d0 :: s0).length : ℤ) = -(((z + (d0 :: s0).length : ℕ)) : ℤ) from by
      push_cast
      omega,
      zpow_neg, ← zpow_natCast (10 : ℚ) (z + (d0 :: s0).length)]
    have h0 : ((10 : ℚ) ^ (((z + (d0 :: s0).length : ℕ)) : ℤ)) ≠ 0 := zpow_ne_zero _ (by norm_num)
    field_simp
  rw [if_neg hb3]
  by_cases hb4 : (((d0 :: s0).length : ℤ) = 1)
  · rw [if_pos hb4]
    have hs0 : s0 = [] := by
      simp only [List.length_cons] at hb4
      have hl0 : s0.length = 0 := by omega
      exact List.length_eq_zero.mp hl0
    subst hs0
    have key := parse_int_exp [d0] (by intro d hd; simp at hd; omega) (by simp) (n - 1) hm
    refine ⟨digitChar d0, 'e' :: (if 0 ≤ n - 1 then '+' else '-') ::
      (natToDigits (n - 1).natAbs).map digitChar, by simp, digitChar_isDigit d0 hd0, ?_⟩
    rw [show digitChar d0 :: ('e' :: (if 0 ≤ n - 1 then '+' else '-') ::
        (natToDigits (n - 1).natAbs).map digitChar) =
      ([d0] : List ℕ).map digitChar ++ 'e' :: (if 0 ≤ n - 1 then '+' else '-') ::
        (natToDigits (n - 1).natAbs).map digitChar from by simp]
    rw [key]
    congr 1
  rw [if_neg hb4]
  have key := parse_frac_exp [d0] s0 (by intro d hd; simp at hd; omega)
    (fun d hd => hs d (by simp [hd])) (by simp) (n - 1) hm
  refine ⟨digitChar d0, '.' :: (List.map digitChar s0 ++ 'e' ::
    (if 0 ≤ n - 1 then '+' else '-') :: (natToDigits (n - 1).natAbs).map digitChar),
    by simp, digitChar_isDigit d0 hd0, ?_⟩
  rw [show digitChar d0 :: ('.' :: (List.map digitChar s0 ++ 'e' ::
      (if 0 ≤ n - 1 then '+' else '-') :: (natToDigits (n - 1).natAbs).map digitChar)) =
    ([d0] : List ℕ).map digitChar ++ '.' :: (s0.map digitChar ++ 'e' ::
      (if 0 ≤ n - 1 then '+' else '-') :: (natToDigits (n - 1).natAbs).map digitChar) from by
    simp]
  rw [key]
  congr 1
  exact parse_fmt5_val d0 s0 n

theorem Repr64_neg (q : ℚ) (h : Repr64 q) : Repr64 (-q) := by
  obtain ⟨M, e, h1, h2, h3, h4⟩ := h
  exact ⟨-M, e, by rwa [abs_neg], h2, h3, by rw [h4]; push_cast; ring⟩

theorem to_numberPos_fmt (q : ℚ) (k : ℕ) (hq : 0 < q) (h : Repr64 q)
    (hk1 : 1 ≤ k) (hk17 : k ≤ 17) (hrt : roundTrips q k = true) :
    ∃ c t, do_format_double q k = c :: t ∧ c.isDigit = true ∧
      to_numberPos (c :: t) = F64.fin q := by
  obtain ⟨hqnum, hqden, hlow, hhigh⟩ := repr_pos_bounds q hq h
  have hnum10 : q.num.toNat < 10 ^ 2500 :=
    lt_of_lt_of_le hqnum (Nat.pow_le_pow_left (by norm_num) 2500)
  have hden10 : q.den < 10 ^ 2500 :=
    lt_of_lt_of_le hqden (Nat.pow_le_pow_left (by norm_num) 2500)
  obtain ⟨hd324, hd308⟩ := dRange q hq h
  obtain ⟨hD1, hD2⟩ := renderDigits_fst q k hq hk1 hnum10 hden10
  have hsnd := renderDigits_snd q k
  set D := (renderDigits q k).1 with hDdef
  set nn := (renderDigits q k).2 with hnndef
  have hDpos : 0 < D := lt_of_lt_of_le (by positivity) hD1
  have hDeq : ((D.toNat : ℤ)) = D := Int.toNat_of_nonneg (le_of_lt hDpos)
  have hDn1 : 10 ^ (k - 1) ≤ D.toNat := by
    rw [← hDeq] at hD1
    exact_mod_cast hD1
  have hDn2 : D.toNat < 10 ^ k := by
    rw [← hDeq] at hD2
    exact_mod_cast hD2
  have hDn20 : D.toNat < 10 ^ 20 :=
    lt_of_lt_of_le hDn2 (Nat.pow_le_pow_right (by norm_num) (by omega))
  obtain ⟨hsdig, hsval, _⟩ := natToDigitsAux_val 20 D.toNat hDn20
  have hslen : (natToDigitsAux 20 D.toNat).length = k :=
    natToDigitsAux_len 20 D.toNat k hk1 (by omega) hDn1 hDn2
  have hnnb : (nn - 1).natAbs < 10 ^ 20 := by
    have hb : (nn - 1).natAbs ≤ 326 := by
      rcases hsnd with hs | hs <;> omega
    calc (nn - 1).natAbs ≤ 326 := hb
      _ < 10 ^ 20 := by norm_num
  have hsne : natToDigitsAux 20 D.toNat ≠ [] := by
    intro hcon
    rw [hcon] at hslen
    simp at hslen
    omega
  obtain ⟨c, t, hct, hcd, hparse⟩ := parse_fmt (natToDigitsAux 20 D.toNat) nn hsdig hsne hnnb
  have hdf : do_format_double q k = fmtDigits (natToDigitsAux 20 D.toNat) nn := rfl
  refine ⟨c, t, by rw [hdf]; exact hct, hcd, ?_⟩
  have hval : (ofDigBE (natToDigitsAux 20 D.toNat) : ℚ) *
      10 ^ (nn - ((natToDigitsAux 20 D.toNat).length : ℤ)) = renderValue q k := by
    rw [hsval, hslen]
    have hcast : ((D.toNat : ℕ) : ℚ) = ((D : ℤ) : ℚ) := by
      rw [← hDeq]
      push_cast
      rfl
    rw [hcast]
    rfl
  rw [hval] at hparse
  have hc1 : c ≠ '-' := by
    intro hc
    rw [hc] at hcd
    exact absurd hcd (by decide)
  have hc2 : c ≠ '+' := by
    intro hc
    rw [hc] at hcd
    exact absurd hcd (by decide)
  have hinf : (c :: t) ≠ "Infinity".data := by
    intro hcon
    have hcI : c = 'I' := by
      have := congrArg (fun l => l.headD ' ') hcon
      simpa using this
    rw [hcI] at hcd
    exact absurd hcd (by decide)
  have hV0 : renderValue q k ≠ 0 := by
    have hp1 : (0 : ℚ) < ((D : ℤ) : ℚ) := by exact_mod_cast hDpos
    have hp2 : (0 : ℚ) < (10 : ℚ) ^ (nn - (k : ℤ)) := zpow_pos (by norm_num) _
    have : (0 : ℚ) < renderValue q k := mul_pos hp1 hp2
    exact ne_of_gt this
  have hfix : roundF64pos (renderValue q k) = q := by
    have h' : (roundF64pos (renderValue q k) == q) = true := hrt
    exact eq_of_beq h'
  rw [to_numberPos, if_neg hinf, hparse]
  rw [finOfParsed, if_neg hV0, hfix]

/-- **C2.** For every well-formed double `m`, `to_string(m)` produces a string
and `to_number` of that string returns `m` again (NaN treated equal to NaN,
via `f64NumEq`); moreover for every positive representable magnitude the digit
count chosen by the `to_string` search loop (`findK`) is the smallest
`k ∈ [1,17]` whose `k`-significant-digit rendering parses back to exactly the
same double. -/
theorem c2_tostring_tonumber_roundtrip :
    (∀ m : F64, WfF64 m →
      ∃ s : String, to_string m = some s ∧ f64NumEq (to_number s) m = true) ∧
    (∀ q : ℚ, 0 < q → Repr64 q →
      ∃ k, findK q = some k ∧ 1 ≤ k ∧ k ≤ 17 ∧ roundTrips q k = true ∧
        ∀ j, 1 ≤ j → j < k → roundTrips q j = false) := by
  constructor
  · intro m hm
    cases m with
    | nan =>
      exact ⟨"NaN", by with_unfolding_all rfl, by with_unfolding_all rfl⟩
    | negZero =>
      exact ⟨"0", by with_unfolding_all rfl, by with_unfolding_all rfl⟩
    | inf b =>
      cases b with
      | false => exact ⟨"Infinity", by with_unfolding_all rfl, by with_unfolding_all rfl⟩
      | true => exact ⟨"-Infinity", by with_unfolding_all rfl, by with_unfolding_all rfl⟩
    | fin q =>
      have hrep : Repr64 q := hm
      rcases lt_trichotomy q 0 with hneg | hzero | hpos
      · have hposn : 0 < -q := by linarith
        have hrepn : Repr64 (-q) := Repr64_neg q hrep
        obtain ⟨k, hfk, hk1, hk17, hrtk, _⟩ := findK_spec (-q) (exists17 (-q) hposn hrepn)
        obtain ⟨c, t, hct, hcd, hnp⟩ := to_numberPos_fmt (-q) k hposn hrepn hk1 hk17 hrtk
        have h1 : to_stringPos (-q) = some (do_format_double (-q) k) := by
          rw [to_stringPos, hfk]
          rfl
        have h2 : to_stringChars (F64.fin q) = some ('-' :: do_format_double (-q) k) := by
          rw [to_stringChars, if_neg (ne_of_lt hneg), if_pos hneg, h1]
          rfl
        refine ⟨String.mk ('-' :: do_format_double (-q) k), ?_, ?_⟩
        · rw [to_string, h2]
          rfl
        · show f64NumEq (to_numberStr ('-' :: do_format_double (-q) k)) (F64.fin q) = true
          rw [hct]
          rw [show to_numberStr ('-' :: c :: t) = negF64 (to_numberPos (c :: t)) from by
            rw [to_numberStr, if_pos rfl]]
          rw [hnp]
          have hnz : -q ≠ 0 := by
            intro hc
            rw [neg_eq_zero] at hc
            exact absurd hc (ne_of_lt hneg)
          rw [negF64, if_neg hnz, neg_neg]
          simp [f64NumEq, ieeeEq]
      · subst hzero
        exact ⟨"0", by with_unfolding_all rfl, by with_unfolding_all rfl⟩
      · obtain ⟨k, hfk, hk1, hk17, hrtk, _⟩ := findK_spec q (exists17 q hpos hrep)
        obtain ⟨c, t, hct, hcd, hnp⟩ := to_numberPos_fmt q k hpos hrep hk1 hk17 hrtk
        have h1 : to_stringPos q = some (do_format_double q k) := by
          rw [to_stringPos, hfk]
          rfl
        have h2 : to_stringChars (F64.fin q) = some (do_format_double q k) := by
          rw [to_stringChars, if_neg (ne_of_gt hpos), if_neg (not_lt.mpr (le_of_lt hpos))]
          exact h1
        refine ⟨String.mk (do_format_double q k), ?_, ?_⟩
        · rw [to_string, h2]
          rfl
        · show f64NumEq (to_numberStr (do_format_double q k)) (F64.fin q) = true
          rw [hct]
          have hcm : c ≠ '-' ∧ c ≠ '+' := by
            constructor <;> intro hc <;> rw [hc] at hcd <;> exact absurd hcd (by decide)
          rw [show to_numberStr (c :: t) = to_numberPos (c :: t) from by
            rw [to_numberStr, if_neg hcm.1, if_neg hcm.2]]
          rw [hnp]
          simp [f64NumEq, ieeeEq]
  · intro q hq hrep
    exact findK_spec q (exists17 q hq hrep)

/-- C2 witness: the round-trip theorem applied at the concrete double `1`
(whose representability on the binary64 grid is discharged concretely), for
both the string round-trip leg and the smallest-`k` leg. -/
theorem c2_tostring_tonumber_roundtrip_witness :
    (∃ s : String, to_string (F64.fin 1) = some s ∧
      f64NumEq (to_number s) (F64.fin 1) = true) ∧
    (∃ k, findK (1 : ℚ) = some k ∧ 1 ≤ k ∧ k ≤ 17 ∧ roundTrips (1 : ℚ) k = true ∧
      ∀ j, 1 ≤ j → j < k → roundTrips (1 : ℚ) j = false) :=
  ⟨c2_tostring_tonumber_roundtrip.1 (F64.fin 1) ⟨1, 0, by norm_num⟩,
   c2_tostring_tonumber_roundtrip.2 1 one_pos ⟨1, 0, by norm_num⟩⟩

end Mjs
